import Mathlib

/-!
# Verification of the actions-metrics table pipeline

A shallow embedding of `src/actions-metrics/parser.py`: the column-name
normalizer, the CSV loader's numeric coercion and header renaming, the
usage/performance merger (an outer join with coalescing, on top of the
polars dataframe semantics the code calls into), the row filter, and the
Excel export adapter.  Strings are modelled as `List Char`; a dataframe is
a list of named columns, each a list of optional cells.
-/

namespace ActionsMetrics

/-- Python strings are modelled as lists of characters. -/
abbrev Str := List Char

/-- Coercion from Lean string literals into the model. -/
def str (s : String) : Str := s.data

/-- Characters stripped by the leading/trailing quote removal
`re.sub(r"^['\"]+|['\"]+$", "", s)`: apostrophe and double quote. -/
def isQuoteChar (c : Char) : Bool := c = '\'' || c = '"'

/-- The whitespace characters stripped by Python's `str.strip()`
(ASCII range: space, tab, newline, carriage return, vertical tab, form feed). -/
def isPySpace (c : Char) : Bool :=
  c = ' ' || c = '\t' || c = '\n' || c = '\r' || c = '\x0b' || c = '\x0c'

/-- Membership in the regex class `[0-9A-Za-z]`. -/
def isAsciiAlnum (c : Char) : Bool :=
  (48 ≤ c.toNat && c.toNat ≤ 57) ||
  (65 ≤ c.toNat && c.toNat ≤ 90) ||
  (97 ≤ c.toNat && c.toNat ≤ 122)

/-- Membership in the regex class `[^0-9A-Za-z]`. -/
def notAlnum (c : Char) : Bool := !isAsciiAlnum c

/-- The underscore character, as a predicate. -/
def isUnderscore (c : Char) : Bool := c = '_'

/-- Python `str.lower()` restricted to ASCII letters (the only characters a
canonical column name can contain after the non-alphanumeric replacement). -/
def toLowerAscii (c : Char) : Char :=
  if 65 ≤ c.toNat ∧ c.toNat ≤ 90 then Char.ofNat (c.toNat + 32) else c

/-- Remove the trailing run of characters satisfying `p` (Python strips from
the right; modelled through `reverse`/`dropWhile`). -/
def dropTrail (p : Char → Bool) (s : Str) : Str :=
  (s.reverse.dropWhile p).reverse

/-- Python `str.strip()`: drop leading and trailing whitespace. -/
def stripWs (s : Str) : Str := dropTrail isPySpace (s.dropWhile isPySpace)

/-- `re.sub(r"^['\"]+|['\"]+$", "", s)`: drop the leading and the trailing
run of quote/apostrophe characters. -/
def stripQuotes (s : Str) : Str := dropTrail isQuoteChar (s.dropWhile isQuoteChar)

/-- State machine for `re.sub(r"[^0-9A-Za-z]+", "_", s)`: the flag records
whether the scanner is inside a non-alphanumeric run whose single `_` has
already been emitted. -/
def subRunsAux : Bool → Str → Str
  | _, [] => []
  | inRun, c :: cs =>
    if isAsciiAlnum c then c :: subRunsAux false cs
    else if inRun then subRunsAux true cs
    else '_' :: subRunsAux true cs

/-- `re.sub(r"[^0-9A-Za-z]+", "_", s)`: replace every maximal run of
characters outside `[0-9A-Za-z]` with a single underscore. -/
def subNonAlnumRuns (s : Str) : Str := subRunsAux false s

/-- State machine for `re.sub(r"__+", "_", s)`: collapse every run of
underscores to a single underscore (a run of length one is rewritten to
itself, so this is the same transformation as replacing only runs of two
or more). -/
def collapseAux : Bool → Str → Str
  | _, [] => []
  | inRun, c :: cs =>
    if c = '_' then
      if inRun then collapseAux true cs
      else '_' :: collapseAux true cs
    else c :: collapseAux false cs

/-- `re.sub(r"__+", "_", s)` composed with nothing else: collapse repeated
underscores. -/
def collapseUnderscores (s : Str) : Str := collapseAux false s

/-- Python `str.strip("_")`: drop leading and trailing underscores. -/
def stripUnderscores (s : Str) : Str := dropTrail isUnderscore (s.dropWhile isUnderscore)

/-- `_clean_colname` from `parser.py`: `None` yields the empty string;
otherwise strip whitespace, strip surrounding quote runs, replace
non-alphanumeric runs with `_` and lowercase, collapse repeated `_`
and strip surrounding `_`. -/
def cleanColname (name : Option Str) : Str :=
  match name with
  | none => []
  | some n =>
    let cleaned := stripWs n
    let cleaned := stripQuotes cleaned
    let cleaned := (subNonAlnumRuns cleaned).map toLowerAscii
    stripUnderscores (collapseUnderscores cleaned)

/-- The Normalizer as the specification words it: strip the quote runs
first, then strip whitespace, then the same replacement, lowercasing,
collapsing and stripping steps. -/
def cleanColnameSpecOrder (name : Option Str) : Str :=
  match name with
  | none => []
  | some n =>
    let cleaned := stripQuotes n
    let cleaned := stripWs cleaned
    let cleaned := (subNonAlnumRuns cleaned).map toLowerAscii
    stripUnderscores (collapseUnderscores cleaned)

/-! ## Normalizer lemmas: the shared tail of the pipeline -/

/-- The tail of the normalizer shared by the source order and the spec
order: replacement of non-alphanumeric runs, lowercasing, underscore
collapsing and stripping. -/
def tailPipe (s : Str) : Str :=
  stripUnderscores (collapseUnderscores ((subNonAlnumRuns s).map toLowerAscii))

theorem cleanColname_some (n : Str) :
    cleanColname (some n) = tailPipe (stripQuotes (stripWs n)) := rfl

theorem cleanColnameSpecOrder_some (n : Str) :
    cleanColnameSpecOrder (some n) = tailPipe (stripWs (stripQuotes n)) := rfl

theorem toLowerAscii_underscore : toLowerAscii '_' = '_' := by decide

theorem isQuoteChar_not_alnum {c : Char} (h : isQuoteChar c = true) :
    isAsciiAlnum c = false := by
  simp only [isQuoteChar, Bool.or_eq_true, decide_eq_true_eq] at h
  rcases h with rfl | rfl <;> decide

theorem isPySpace_not_alnum {c : Char} (h : isPySpace c = true) :
    isAsciiAlnum c = false := by
  simp only [isPySpace, Bool.or_eq_true, decide_eq_true_eq] at h
  rcases h with ((((rfl | rfl) | rfl) | rfl) | rfl) | rfl <;> decide

theorem subRunsAux_true_eq (cs : Str) :
    subRunsAux true cs = subNonAlnumRuns (cs.dropWhile notAlnum) := by
  induction cs with
  | nil => rfl
  | cons c cs ih =>
    by_cases h : isAsciiAlnum c = true
    · simp [subRunsAux, subNonAlnumRuns, notAlnum, h, List.dropWhile_cons]
    · simp only [Bool.not_eq_true] at h
      simp [subRunsAux, subNonAlnumRuns, notAlnum, h, List.dropWhile_cons, ih]

theorem collapseAux_true_eq (cs : Str) :
    collapseAux true cs = collapseUnderscores (cs.dropWhile isUnderscore) := by
  induction cs with
  | nil => rfl
  | cons c cs ih =>
    by_cases h : c = '_'
    · subst h
      simp [collapseAux, collapseUnderscores, isUnderscore, List.dropWhile_cons, ih]
    · simp [collapseAux, collapseUnderscores, isUnderscore, h, List.dropWhile_cons]

theorem subNonAlnumRuns_cons_alnum {c : Char} (h : isAsciiAlnum c = true) (cs : Str) :
    subNonAlnumRuns (c :: cs) = c :: subNonAlnumRuns cs := by
  simp [subNonAlnumRuns, subRunsAux, h]

theorem subNonAlnumRuns_cons_notAlnum {c : Char} (h : isAsciiAlnum c = false) (cs : Str) :
    subNonAlnumRuns (c :: cs) = '_' :: subNonAlnumRuns (cs.dropWhile notAlnum) := by
  simp [subNonAlnumRuns, subRunsAux, h, subRunsAux_true_eq]

theorem collapseUnderscores_cons_us (cs : Str) :
    collapseUnderscores ('_' :: cs)
      = '_' :: collapseUnderscores (cs.dropWhile isUnderscore) := by
  simp [collapseUnderscores, collapseAux, collapseAux_true_eq]

theorem collapseUnderscores_cons_not_us {c : Char} (h : ¬ c = '_') (cs : Str) :
    collapseUnderscores (c :: cs) = c :: collapseUnderscores cs := by
  simp [collapseUnderscores, collapseAux, h]

theorem dropWhile_us_collapse_dropWhile (X : Str) :
    (collapseUnderscores (X.dropWhile isUnderscore)).dropWhile isUnderscore
      = (collapseUnderscores X).dropWhile isUnderscore := by
  cases X with
  | nil => rfl
  | cons d X' =>
    by_cases h : d = '_'
    · subst h
      rw [collapseUnderscores_cons_us]
      rw [show (('_' :: X').dropWhile isUnderscore) = X'.dropWhile isUnderscore from by
        simp [List.dropWhile_cons, isUnderscore]]
      rw [show (('_' :: collapseUnderscores (X'.dropWhile isUnderscore)).dropWhile isUnderscore)
            = (collapseUnderscores (X'.dropWhile isUnderscore)).dropWhile isUnderscore from by
        simp [List.dropWhile_cons, isUnderscore]]
    · rw [show ((d :: X').dropWhile isUnderscore) = d :: X' from by
        simp [List.dropWhile_cons, isUnderscore, h]]

theorem stripU_collapse_cons_us (X : Str) :
    stripUnderscores (collapseUnderscores ('_' :: X))
      = stripUnderscores (collapseUnderscores X) := by
  unfold stripUnderscores
  rw [collapseUnderscores_cons_us]
  rw [show (('_' :: collapseUnderscores (X.dropWhile isUnderscore)).dropWhile isUnderscore)
        = (collapseUnderscores (X.dropWhile isUnderscore)).dropWhile isUnderscore from by
    simp [List.dropWhile_cons, isUnderscore]]
  rw [dropWhile_us_collapse_dropWhile]

theorem tailPipe_cons_notAlnum {c : Char} (h : isAsciiAlnum c = false) (cs : Str) :
    tailPipe (c :: cs) = tailPipe (cs.dropWhile notAlnum) := by
  unfold tailPipe
  rw [subNonAlnumRuns_cons_notAlnum h, List.map_cons, toLowerAscii_underscore,
    stripU_collapse_cons_us]

theorem tailPipe_dropWhile_notAlnum (s : Str) :
    tailPipe (s.dropWhile notAlnum) = tailPipe s := by
  cases s with
  | nil => rfl
  | cons c cs =>
    by_cases h : isAsciiAlnum c = true
    · rw [show ((c :: cs).dropWhile notAlnum) = c :: cs from by
        simp [List.dropWhile_cons, notAlnum, h]]
    · simp only [Bool.not_eq_true] at h
      rw [show ((c :: cs).dropWhile notAlnum) = cs.dropWhile notAlnum from by
        simp [List.dropWhile_cons, notAlnum, h],
        tailPipe_cons_notAlnum h]

theorem tailPipe_dropWhile (p : Char → Bool)
    (hp : ∀ c, p c = true → isAsciiAlnum c = false) (s : Str) :
    tailPipe (s.dropWhile p) = tailPipe s := by
  induction s with
  | nil => rfl
  | cons c cs ih =>
    by_cases h : p c = true
    · rw [show ((c :: cs).dropWhile p) = cs.dropWhile p from by
        simp [List.dropWhile_cons, h], ih,
        tailPipe_cons_notAlnum (hp c h), tailPipe_dropWhile_notAlnum]
    · simp only [Bool.not_eq_true] at h
      rw [show ((c :: cs).dropWhile p) = c :: cs from by
        simp [List.dropWhile_cons, h]]

theorem collapseAux_append_us (Y : Str) : ∀ b : Bool,
    collapseAux b (Y ++ ['_']) = collapseAux b Y ∨
      collapseAux b (Y ++ ['_']) = collapseAux b Y ++ ['_'] := by
  induction Y with
  | nil =>
    intro b
    cases b
    · right; rfl
    · left; rfl
  | cons c cs ih =>
    intro b
    by_cases h : c = '_'
    · subst h
      cases b <;>
        (rcases ih true with h' | h')
      · left; simp [collapseAux, h']
      · right; simp [collapseAux, h']
      · left; simp [collapseAux, h']
      · right; simp [collapseAux, h']
    · rcases ih false with h' | h'
      · left; simp [collapseAux, h, h']
      · right; simp [collapseAux, h, h']

theorem subRunsAux_append_notAlnum {c : Char} (hc : isAsciiAlnum c = false) (xs : Str) :
    ∀ b : Bool, subRunsAux b (xs ++ [c]) = subRunsAux b xs ∨
      subRunsAux b (xs ++ [c]) = subRunsAux b xs ++ ['_'] := by
  induction xs with
  | nil =>
    intro b
    cases b
    · right; simp [subRunsAux, hc]
    · left; simp [subRunsAux, hc]
  | cons d ds ih =>
    intro b
    by_cases h : isAsciiAlnum d = true
    · rcases ih false with h' | h'
      · left; simp [subRunsAux, h, h']
      · right; simp [subRunsAux, h, h']
    · simp only [Bool.not_eq_true] at h
      cases b <;>
        (rcases ih true with h' | h')
      · left; simp [subRunsAux, h, h']
      · right; simp [subRunsAux, h, h']
      · left; simp [subRunsAux, h, h']
      · right; simp [subRunsAux, h, h']

theorem dropTrail_append_pos {p : Char → Bool} {c : Char} (h : p c = true) (l : Str) :
    dropTrail p (l ++ [c]) = dropTrail p l := by
  unfold dropTrail
  simp [List.dropWhile_cons, h]

theorem dropTrail_append_neg {p : Char → Bool} {c : Char} (h : ¬ p c = true) (l : Str) :
    dropTrail p (l ++ [c]) = l ++ [c] := by
  unfold dropTrail
  simp [List.dropWhile_cons, h]

theorem stripUnderscores_append_us (Z : Str) :
    stripUnderscores (Z ++ ['_']) = stripUnderscores Z := by
  unfold stripUnderscores
  rw [List.dropWhile_append]
  by_cases h : (Z.dropWhile isUnderscore).isEmpty
  · rw [if_pos h]
    rw [List.isEmpty_iff] at h
    rw [h]
    rw [show ((['_'] : Str).dropWhile isUnderscore) = [] from by decide]
  · rw [if_neg h]
    exact dropTrail_append_pos (by simp [isUnderscore]) _

theorem tailPipe_append_notAlnum {c : Char} (h : isAsciiAlnum c = false) (xs : Str) :
    tailPipe (xs ++ [c]) = tailPipe xs := by
  unfold tailPipe
  rcases subRunsAux_append_notAlnum h xs false with h' | h'
  · rw [show subNonAlnumRuns (xs ++ [c]) = subNonAlnumRuns xs from h']
  · rw [show subNonAlnumRuns (xs ++ [c]) = subNonAlnumRuns xs ++ ['_'] from h',
      List.map_append]
    rw [show (['_'] : Str).map toLowerAscii = ['_'] from by decide]
    rcases collapseAux_append_us ((subNonAlnumRuns xs).map toLowerAscii) false with h2 | h2
    · rw [show collapseUnderscores ((subNonAlnumRuns xs).map toLowerAscii ++ ['_'])
            = collapseUnderscores ((subNonAlnumRuns xs).map toLowerAscii) from h2]
    · rw [show collapseUnderscores ((subNonAlnumRuns xs).map toLowerAscii ++ ['_'])
            = collapseUnderscores ((subNonAlnumRuns xs).map toLowerAscii) ++ ['_'] from h2,
        stripUnderscores_append_us]

theorem tailPipe_dropTrail (p : Char → Bool)
    (hp : ∀ c, p c = true → isAsciiAlnum c = false) (s : Str) :
    tailPipe (dropTrail p s) = tailPipe s := by
  induction s using List.reverseRecOn with
  | nil => rfl
  | append_singleton xs c ih =>
    by_cases h : p c = true
    · rw [dropTrail_append_pos h, ih, tailPipe_append_notAlnum (hp c h)]
    · rw [dropTrail_append_neg h]

/-- Both orders of the two stripping steps wash out: the tail pipeline
erases any leading/trailing non-alphanumeric junk by itself. -/
theorem tailPipe_stripWs (s : Str) : tailPipe (stripWs s) = tailPipe s := by
  unfold stripWs
  rw [tailPipe_dropTrail isPySpace (fun _ h => isPySpace_not_alnum h),
    tailPipe_dropWhile isPySpace (fun _ h => isPySpace_not_alnum h)]

theorem tailPipe_stripQuotes (s : Str) : tailPipe (stripQuotes s) = tailPipe s := by
  unfold stripQuotes
  rw [tailPipe_dropTrail isQuoteChar (fun _ h => isQuoteChar_not_alnum h),
    tailPipe_dropWhile isQuoteChar (fun _ h => isQuoteChar_not_alnum h)]

/-- C8 — Column Normalizer reference definition: the source's order of the
two stripping steps (whitespace first, then quote runs) computes the same
function as the specification's order (quote runs first, then whitespace);
null or empty input yields the empty string; and `normalize("'Job") = "job"`. -/
theorem cleanColname_reference_definition :
    (∀ name : Option Str, cleanColname name = cleanColnameSpecOrder name) ∧
    cleanColname (some (str "'Job")) = str "job" ∧
    cleanColname none = str "" ∧ cleanColname (some (str "")) = str "" := by
  refine ⟨?_, by decide, rfl, by decide⟩
  intro name
  cases name with
  | none => rfl
  | some n =>
    rw [cleanColname_some, cleanColnameSpecOrder_some, tailPipe_stripQuotes,
      tailPipe_stripWs, tailPipe_stripWs, tailPipe_stripQuotes]

/-! ## Canonical form: the output of the normalizer is a fixed point -/

/-- Adjacent characters never form a double underscore. -/
def noRun (a b : Char) : Prop := a = '_' → b ≠ '_'

theorem char_toNat_ofNat_valid {n : Nat} (h : n < 55296) : (Char.ofNat n).toNat = n := by
  have hv : n.isValidChar := Or.inl h
  rw [Char.ofNat, dif_pos hv]
  simp [Char.ofNatAux, Char.toNat, UInt32.toNat]

theorem eq_of_toNat_eq {c d : Char} (h : c.toNat = d.toNat) : c = d := by
  have h2 := congrArg Char.ofNat h
  rwa [Char.ofNat_toNat, Char.ofNat_toNat] at h2

theorem toLowerAscii_toNat_of_upper {c : Char} (h1 : 65 ≤ c.toNat) (h2 : c.toNat ≤ 90) :
    (toLowerAscii c).toNat = c.toNat + 32 := by
  unfold toLowerAscii
  rw [if_pos ⟨h1, h2⟩]
  exact char_toNat_ofNat_valid (by omega)

theorem toLowerAscii_eq_self_of_not_upper {c : Char}
    (h : ¬(65 ≤ c.toNat ∧ c.toNat ≤ 90)) : toLowerAscii c = c := by
  unfold toLowerAscii
  rw [if_neg h]

theorem toLowerAscii_idem (c : Char) :
    toLowerAscii (toLowerAscii c) = toLowerAscii c := by
  by_cases h : 65 ≤ c.toNat ∧ c.toNat ≤ 90
  · have ht := toLowerAscii_toNat_of_upper h.1 h.2
    exact toLowerAscii_eq_self_of_not_upper (by omega)
  · rw [toLowerAscii_eq_self_of_not_upper h, toLowerAscii_eq_self_of_not_upper h]

theorem isAsciiAlnum_iff (c : Char) : isAsciiAlnum c = true ↔
    (48 ≤ c.toNat ∧ c.toNat ≤ 57) ∨ (65 ≤ c.toNat ∧ c.toNat ≤ 90) ∨
    (97 ≤ c.toNat ∧ c.toNat ≤ 122) := by
  simp [isAsciiAlnum, Bool.or_eq_true, Bool.and_eq_true, decide_eq_true_eq, or_assoc]

theorem isAsciiAlnum_toLowerAscii {c : Char} (h : isAsciiAlnum c = true) :
    isAsciiAlnum (toLowerAscii c) = true := by
  by_cases hu : 65 ≤ c.toNat ∧ c.toNat ≤ 90
  · have ht := toLowerAscii_toNat_of_upper hu.1 hu.2
    rw [isAsciiAlnum_iff]
    omega
  · rwa [toLowerAscii_eq_self_of_not_upper hu]

theorem toLowerAscii_ne_underscore {c : Char} (h : c ≠ '_') :
    toLowerAscii c ≠ '_' := by
  by_cases hu : 65 ≤ c.toNat ∧ c.toNat ≤ 90
  · have ht := toLowerAscii_toNat_of_upper hu.1 hu.2
    intro he
    have : (toLowerAscii c).toNat = 95 := by rw [he]; rfl
    omega
  · rwa [toLowerAscii_eq_self_of_not_upper hu]

theorem head?_dropWhile_false {p : Char → Bool} {s : Str} {c : Char}
    (h : (s.dropWhile p).head? = some c) : p c = false := by
  have hm := List.head?_dropWhile_not p s
  rw [h] at hm
  exact hm

theorem mem_subRunsAux {s : Str} {c : Char} :
    ∀ {b}, c ∈ subRunsAux b s → isAsciiAlnum c = true ∨ c = '_' := by
  induction s with
  | nil => intro b h; simp [subRunsAux] at h
  | cons d ds ih =>
    intro b h
    by_cases hd : isAsciiAlnum d = true
    · simp only [subRunsAux, hd, if_true, List.mem_cons] at h
      rcases h with rfl | h
      · exact Or.inl hd
      · exact ih h
    · simp only [Bool.not_eq_true] at hd
      simp only [subRunsAux, hd, Bool.false_eq_true, if_false] at h
      cases b with
      | true => exact ih h
      | false =>
        rcases List.mem_cons.mp h with rfl | h
        · exact Or.inr rfl
        · exact ih h

theorem subRunsAux_true_head? {s : Str} {c : Char}
    (h : (subRunsAux true s).head? = some c) : isAsciiAlnum c = true := by
  induction s with
  | nil => simp [subRunsAux] at h
  | cons d ds ih =>
    by_cases hd : isAsciiAlnum d = true
    · simp only [subRunsAux, hd, if_true, List.head?_cons, Option.some.injEq] at h
      exact h ▸ hd
    · simp only [Bool.not_eq_true] at hd
      simp only [subRunsAux, hd, Bool.false_eq_true, if_false, if_true] at h
      exact ih h

theorem chain'_subRunsAux (s : Str) : ∀ b, List.Chain' noRun (subRunsAux b s) := by
  induction s with
  | nil => intro b; simp [subRunsAux]
  | cons d ds ih =>
    intro b
    by_cases hd : isAsciiAlnum d = true
    · simp only [subRunsAux, hd, if_true]
      refine List.chain'_cons'.mpr ⟨?_, ih false⟩
      intro y _ hdy
      exact absurd (hdy ▸ hd) (by decide)
    · simp only [Bool.not_eq_true] at hd
      simp only [subRunsAux, hd, Bool.false_eq_true, if_false]
      cases b with
      | true => exact ih true
      | false =>
        refine List.chain'_cons'.mpr ⟨?_, ih true⟩
        intro y hy _
        have := subRunsAux_true_head? hy
        intro hy'
        exact absurd (hy' ▸ this) (by decide)

theorem mem_collapseAux {s : Str} {c : Char} :
    ∀ {b}, c ∈ collapseAux b s → c ∈ s := by
  induction s with
  | nil => intro b h; simp [collapseAux] at h
  | cons d ds ih =>
    intro b h
    by_cases hd : d = '_'
    · subst hd
      simp only [collapseAux, if_true] at h
      cases b with
      | true => exact List.mem_cons_of_mem _ (ih h)
      | false =>
        rcases List.mem_cons.mp h with rfl | h
        · exact List.mem_cons_self _ _
        · exact List.mem_cons_of_mem _ (ih h)
    · simp only [collapseAux, hd, if_false] at h
      rcases List.mem_cons.mp h with rfl | h
      · exact List.mem_cons_self _ _
      · exact List.mem_cons_of_mem _ (ih h)

theorem collapseAux_true_head? {s : Str} {c : Char}
    (h : (collapseAux true s).head? = some c) : c ≠ '_' := by
  induction s with
  | nil => simp [collapseAux] at h
  | cons d ds ih =>
    by_cases hd : d = '_'
    · subst hd
      simp only [collapseAux, if_true] at h
      exact ih h
    · simp only [collapseAux, hd, if_false, List.head?_cons, Option.some.injEq] at h
      exact h ▸ hd

theorem chain'_collapseAux (s : Str) : ∀ b, List.Chain' noRun (collapseAux b s) := by
  induction s with
  | nil => intro b; simp [collapseAux]
  | cons d ds ih =>
    intro b
    by_cases hd : d = '_'
    · subst hd
      simp only [collapseAux, if_true]
      cases b with
      | true => exact ih true
      | false =>
        refine List.chain'_cons'.mpr ⟨?_, ih true⟩
        intro y hy _
        exact collapseAux_true_head? hy
    · simp only [collapseAux, hd, if_false]
      refine List.chain'_cons'.mpr ⟨?_, ih false⟩
      intro y _ hdy
      exact absurd hdy hd

theorem dropTrail_prefixOf (p : Char → Bool) (l : Str) : dropTrail p l <+: l := by
  unfold dropTrail
  conv_rhs => rw [← List.reverse_reverse l]
  exact List.reverse_prefix.mpr (List.dropWhile_suffix p)

theorem mem_stripUnderscores {s : Str} {c : Char}
    (h : c ∈ stripUnderscores s) : c ∈ s := by
  unfold stripUnderscores at h
  exact (List.dropWhile_sublist isUnderscore).subset
    ((dropTrail_prefixOf isUnderscore _).sublist.subset h)

theorem chain'_stripUnderscores {s : Str} (h : List.Chain' noRun s) :
    List.Chain' noRun (stripUnderscores s) :=
  List.Chain'.prefix (h.suffix (List.dropWhile_suffix isUnderscore))
    (dropTrail_prefixOf isUnderscore _)

theorem stripUnderscores_head? {s : Str} {c : Char}
    (h : (stripUnderscores s).head? = some c) : c ≠ '_' := by
  unfold stripUnderscores at h
  have hpre := dropTrail_prefixOf isUnderscore (s.dropWhile isUnderscore)
  obtain ⟨t, ht⟩ := hpre
  cases he : dropTrail isUnderscore (s.dropWhile isUnderscore) with
  | nil => rw [he] at h; simp at h
  | cons a l =>
    rw [he] at h ht
    simp only [List.head?_cons, Option.some.injEq] at h
    have ha : (s.dropWhile isUnderscore).head? = some a := by
      rw [← ht]; rfl
    have hf := head?_dropWhile_false ha
    simp only [isUnderscore, decide_eq_false_iff_not] at hf
    exact h ▸ hf

theorem stripUnderscores_getLast? {s : Str} {c : Char}
    (h : (stripUnderscores s).getLast? = some c) : c ≠ '_' := by
  unfold stripUnderscores dropTrail at h
  rw [List.getLast?_reverse] at h
  have := head?_dropWhile_false h
  simp only [isUnderscore, decide_eq_false_iff_not] at this
  exact this

/-- The canonical-form invariant: only lowercase alphanumerics and single
underscores, none at either end. -/
def CanonicalStr (s : Str) : Prop :=
  (∀ c ∈ s, (isAsciiAlnum c = true ∧ toLowerAscii c = c) ∨ c = '_') ∧
  List.Chain' noRun s ∧ s.head? ≠ some '_' ∧ s.getLast? ≠ some '_'

theorem tailPipe_canonical (s : Str) : CanonicalStr (tailPipe s) := by
  refine ⟨?_, ?_, ?_, ?_⟩
  · intro c hc
    have h1 : c ∈ collapseUnderscores ((subNonAlnumRuns s).map toLowerAscii) :=
      mem_stripUnderscores hc
    have h2 : c ∈ (subNonAlnumRuns s).map toLowerAscii := mem_collapseAux h1
    obtain ⟨d, hd, rfl⟩ := List.mem_map.mp h2
    rcases mem_subRunsAux hd with h | h
    · exact Or.inl ⟨isAsciiAlnum_toLowerAscii h, toLowerAscii_idem d⟩
    · subst h
      exact Or.inr toLowerAscii_underscore
  · exact chain'_stripUnderscores (chain'_collapseAux _ false)
  · intro h
    exact stripUnderscores_head? h rfl
  · intro h
    exact stripUnderscores_getLast? h rfl

theorem dropWhile_eq_self_of_all {p : Char → Bool} {s : Str}
    (h : ∀ c ∈ s, p c = false) : s.dropWhile p = s := by
  cases s with
  | nil => rfl
  | cons a as =>
    exact List.dropWhile_cons_of_neg
      (by rw [h a (List.mem_cons_self a as)]; exact Bool.false_ne_true)

theorem dropTrail_eq_self_of_all {p : Char → Bool} {s : Str}
    (h : ∀ c ∈ s, p c = false) : dropTrail p s = s := by
  unfold dropTrail
  rw [dropWhile_eq_self_of_all (fun c hc => h c (List.mem_reverse.mp hc)),
    List.reverse_reverse]

theorem subRunsAux_true_eq_false_head_alnum {d : Char}
    (h : isAsciiAlnum d = true) (ds : Str) :
    subRunsAux true (d :: ds) = subRunsAux false (d :: ds) := by
  simp [subRunsAux, h]

theorem subNonAlnumRuns_eq_self : ∀ {s : Str},
    (∀ c ∈ s, isAsciiAlnum c = true ∨ c = '_') → List.Chain' noRun s →
    s.getLast? ≠ some '_' → subNonAlnumRuns s = s := by
  intro s
  induction s with
  | nil => intro _ _ _; rfl
  | cons c cs ih =>
    intro hc hch hl
    rcases hc c (List.mem_cons_self c cs) with h | h
    · rw [subNonAlnumRuns_cons_alnum h]
      have htl : subNonAlnumRuns cs = cs := by
        refine ih (fun d hd => hc d (List.mem_cons_of_mem c hd))
          (List.chain'_cons'.mp hch).2 ?_
        cases cs with
        | nil => simp
        | cons d ds => rwa [List.getLast?_cons_cons] at hl
      rw [htl]
    · subst h
      cases cs with
      | nil => exact absurd rfl hl
      | cons d ds =>
        have hd_ne : d ≠ '_' :=
          (List.chain'_cons'.mp hch).1 d rfl rfl
        have hd_al : isAsciiAlnum d = true := by
          rcases hc d (List.mem_cons_of_mem _ (List.mem_cons_self d ds)) with h | h
          · exact h
          · exact absurd h hd_ne
        have step : subNonAlnumRuns ('_' :: d :: ds)
            = '_' :: subRunsAux true (d :: ds) := rfl
        rw [step, subRunsAux_true_eq_false_head_alnum hd_al]
        have htl : subNonAlnumRuns (d :: ds) = d :: ds := by
          refine ih (fun e he => hc e (List.mem_cons_of_mem _ he))
            (List.chain'_cons'.mp hch).2 ?_
          rwa [List.getLast?_cons_cons] at hl
        rw [show subRunsAux false (d :: ds) = subNonAlnumRuns (d :: ds) from rfl, htl]

theorem collapseAux_true_eq_false_head_ne {d : Char} (h : d ≠ '_') (ds : Str) :
    collapseAux true (d :: ds) = collapseAux false (d :: ds) := by
  simp [collapseAux, h]

theorem collapseUnderscores_eq_self : ∀ {s : Str},
    List.Chain' noRun s → collapseUnderscores s = s := by
  intro s
  induction s with
  | nil => intro _; rfl
  | cons c cs ih =>
    intro hch
    by_cases h : c = '_'
    · subst h
      cases cs with
      | nil => rfl
      | cons d ds =>
        have hd_ne : d ≠ '_' := (List.chain'_cons'.mp hch).1 d rfl rfl
        have step : collapseUnderscores ('_' :: d :: ds)
            = '_' :: collapseAux true (d :: ds) := rfl
        rw [step, collapseAux_true_eq_false_head_ne hd_ne]
        rw [show collapseAux false (d :: ds) = collapseUnderscores (d :: ds) from rfl,
          ih (List.chain'_cons'.mp hch).2]
    · rw [collapseUnderscores_cons_not_us h, ih (List.chain'_cons'.mp hch).2]

theorem stripUnderscores_eq_self {s : Str} (h1 : s.head? ≠ some '_')
    (h2 : s.getLast? ≠ some '_') : stripUnderscores s = s := by
  unfold stripUnderscores
  have hd : s.dropWhile isUnderscore = s := by
    cases s with
    | nil => rfl
    | cons a as =>
      refine List.dropWhile_cons_of_neg ?_
      simp only [isUnderscore, decide_eq_true_eq]
      intro ha
      exact h1 (by rw [ha]; rfl)
  rw [hd]
  unfold dropTrail
  have : s.reverse.dropWhile isUnderscore = s.reverse := by
    cases hr : s.reverse with
    | nil => rfl
    | cons a as =>
      refine List.dropWhile_cons_of_neg ?_
      simp only [isUnderscore, decide_eq_true_eq]
      intro ha
      have : s.getLast? = some a := by
        rw [← List.head?_reverse, hr]; rfl
      exact h2 (ha ▸ this)
  rw [this, List.reverse_reverse]

/-- A canonical string is a fixed point of the normalizer. -/
theorem cleanColname_eq_self_of_canonical {s : Str} (h : CanonicalStr s) :
    cleanColname (some s) = s := by
  obtain ⟨hc, hch, hh, hl⟩ := h
  have hnspace : ∀ c ∈ s, isPySpace c = false := by
    intro c hcm
    rcases hc c hcm with ⟨ha, _⟩ | ha
    · cases hps : isPySpace c
      · rfl
      · rw [isPySpace_not_alnum hps] at ha; exact absurd ha (by simp)
    · subst ha; decide
  have hnquote : ∀ c ∈ s, isQuoteChar c = false := by
    intro c hcm
    rcases hc c hcm with ⟨ha, _⟩ | ha
    · cases hq : isQuoteChar c
      · rfl
      · rw [isQuoteChar_not_alnum hq] at ha; exact absurd ha (by simp)
    · subst ha; decide
  rw [cleanColname_some]
  rw [show stripWs s = s from by
    unfold stripWs
    rw [dropWhile_eq_self_of_all hnspace, dropTrail_eq_self_of_all hnspace]]
  rw [show stripQuotes s = s from by
    unfold stripQuotes
    rw [dropWhile_eq_self_of_all hnquote, dropTrail_eq_self_of_all hnquote]]
  unfold tailPipe
  rw [subNonAlnumRuns_eq_self (fun c hcm => (hc c hcm).imp (fun h => h.1) id) hch hl]
  rw [List.map_congr_left (fun c hcm => by
    rcases hc c hcm with ⟨_, hf⟩ | hf
    · exact hf
    · subst hf; exact toLowerAscii_underscore), List.map_id']
  rw [collapseUnderscores_eq_self hch, stripUnderscores_eq_self hh hl]

/-- C9 — Normalizer idempotence: every output of `_clean_colname` is a
fixed point of `_clean_colname`. -/
theorem cleanColname_idempotent :
    ∀ s : Str, cleanColname (some (cleanColname (some s))) = cleanColname (some s) := by
  intro s
  rw [cleanColname_some s]
  exact cleanColname_eq_self_of_canonical (tailPipe_canonical _)

/-! ## The dataframe model

A polars `DataFrame` is modelled as a header row of column names plus a
list of rows; a cell is `none` (polars `null`) or an integer, string or
float (modelled as a rational) value.  Row order is the deterministic
order our outer join produces; none of the verified properties depend on
polars' physical row order. -/

/-- A cell value: 64-bit integer, string, or float column content. -/
inductive Val where
  | vInt (n : Int)
  | vStr (s : Str)
  | vFloat (q : ℚ)
deriving DecidableEq

/-- A cell: `none` models polars `null`. -/
abbrev Cell := Option Val

/-- A dataframe: column names plus rows of cells (row-major view of a
polars frame; `rows[i][j]` is column `names[j]` of row `i`). -/
structure Table where
  names : List Str
  rows : List (List Cell)
deriving DecidableEq

/-- Well-formed frame: unique column names, rectangular rows. -/
def Table.WF (t : Table) : Prop :=
  t.names.Nodup ∧ ∀ r ∈ t.rows, r.length = t.names.length

/-- `name in df.columns`. -/
def Table.hasCol (t : Table) (n : Str) : Bool := t.names.any (fun m => m = n)

/-- The cell of row `r` in the column named `n` (`none` when the column is
absent): named-column access, the way every polars expression resolves
`pl.col(n)`. -/
def rowCell (names : List Str) (r : List Cell) (n : Str) : Cell :=
  match (names.zip r).find? (fun p => p.1 = n) with
  | some p => p.2
  | none => none

/-! ## Row filter (`filter_jobs`) -/

/-- Contiguous-substring test: `pat` occurs somewhere inside `s` (the
semantics of an unanchored regex literal match). -/
def isSubstring (pat : Str) : Str → Bool
  | [] => pat.isEmpty
  | c :: tail => pat.isPrefixOf (c :: tail) || isSubstring pat tail

/-- The regex `(?i)Cancel|Check bypass` applied to one cell: the `(?i)`
flag scopes over the whole alternation, so both literals match
case-insensitively, anywhere in the string. -/
def matchesJobPat (s : Str) : Bool :=
  isSubstring (str "cancel") (s.map toLowerAscii) ||
  isSubstring (str "check bypass") (s.map toLowerAscii)

/-- The regex `(?i)copilot|fleety` applied to one cell. -/
def matchesWorkflowPat (s : Str) : Bool :=
  isSubstring (str "copilot") (s.map toLowerAscii) ||
  isSubstring (str "fleety") (s.map toLowerAscii)

/-- The row mask of `df.filter(~pl.col(n).str.contains(pat))` at one cell:
a string cell passes iff the pattern does not match; a null cell yields a
null mask (`contains` propagates null, `~` keeps it null) and polars
`filter` drops null-mask rows, hence `false`.  Non-string, non-null cells
are outside the modelled domain (polars rejects the column's dtype before
any row is consulted). -/
def keepCell (pat : Str → Bool) : Cell → Bool
  | some (Val.vStr s) => !pat s
  | _ => false

/-- One guarded filter stage of `filter_jobs`: `if n in df.columns:
df = df.filter(~pl.col(n).str.contains(pat))`. -/
def filterOnCol (t : Table) (n : Str) (pat : Str → Bool) : Table :=
  if t.hasCol n then
    ⟨t.names, t.rows.filter (fun r => keepCell pat (rowCell t.names r n))⟩
  else t

/-- `filter_jobs` from `parser.py`: drop `job` matches, then drop
`workflow` matches. -/
def filterJobs (df : Table) : Table :=
  filterOnCol (filterOnCol df (str "job") matchesJobPat) (str "workflow") matchesWorkflowPat

/-- The row filter as claim C5 words it: identical to `keepCell` except
that a null cell is treated as non-matching, keeping the row. -/
def keepCellClaim (pat : Str → Bool) : Cell → Bool
  | some (Val.vStr s) => !pat s
  | _ => true

/-- The row filter as claim C5 words it (null cells kept); to be compared
with `filterJobs`. -/
def filterRowsClaim (df : Table) : Table :=
  ⟨df.names, df.rows.filter (fun r =>
    (!df.hasCol (str "job") || keepCellClaim matchesJobPat (rowCell df.names r (str "job"))) &&
    (!df.hasCol (str "workflow") ||
      keepCellClaim matchesWorkflowPat (rowCell df.names r (str "workflow"))))⟩

/-- C5 counterexample: a row whose `job` cell is null and whose `workflow`
cell matches nothing is dropped by `filter_jobs` (the negated `contains`
mask is null and `filter` discards null-mask rows), while the claim's
null-is-kept reading retains it. -/
theorem filterJobs_null_row_counterexample :
    (filterJobs ⟨[str "job", str "workflow"],
        [[none, some (Val.vStr (str "deploy"))]]⟩).rows = [] ∧
    (filterRowsClaim ⟨[str "job", str "workflow"],
        [[none, some (Val.vStr (str "deploy"))]]⟩).rows =
      [[none, some (Val.vStr (str "deploy"))]] := by
  constructor <;> decide

/-- C5 (amended) — Row Filter semantics: `filter_rows` keeps exactly the
rows whose `job` cell is a string not matching `(?i)Cancel|Check bypass`
and whose `workflow` cell is a string not matching `(?i)copilot|fleety`;
a null cell in a present filter column causes the row to be dropped; an
absent filter column imposes no condition. -/
theorem filterJobs_characterization (df : Table) :
    filterJobs df =
      ⟨df.names, df.rows.filter (fun r =>
        (!df.hasCol (str "job") || keepCell matchesJobPat (rowCell df.names r (str "job"))) &&
        (!df.hasCol (str "workflow") ||
          keepCell matchesWorkflowPat (rowCell df.names r (str "workflow"))))⟩ := by
  unfold filterJobs
  cases hj : df.hasCol (str "job") with
  | false =>
    cases hw : df.hasCol (str "workflow") with
    | false =>
      simp only [filterOnCol, hj, hw, Bool.false_eq_true, if_false, Bool.not_false,
        Bool.true_or, Bool.and_self, List.filter_true]
    | true =>
      simp only [filterOnCol, hj, hw, Bool.false_eq_true, if_true, if_false,
        Bool.not_false, Bool.not_true, Bool.true_or, Bool.false_or, Bool.true_and]
  | true =>
    have h1 : filterOnCol df (str "job") matchesJobPat =
        ⟨df.names, df.rows.filter
          (fun r => keepCell matchesJobPat (rowCell df.names r (str "job")))⟩ := by
      simp [filterOnCol, hj]
    rw [h1]
    cases hw : df.hasCol (str "workflow") with
    | false =>
      rw [show filterOnCol ⟨df.names, df.rows.filter
            (fun r => keepCell matchesJobPat (rowCell df.names r (str "job")))⟩
            (str "workflow") matchesWorkflowPat
          = ⟨df.names, df.rows.filter
            (fun r => keepCell matchesJobPat (rowCell df.names r (str "job")))⟩ from by
        have hthis : Table.hasCol ⟨df.names, df.rows.filter
            (fun r => keepCell matchesJobPat (rowCell df.names r (str "job")))⟩
            (str "workflow") = false := hw
        simp [filterOnCol, hthis]]
      simp only [hj, hw, Bool.not_true, Bool.not_false, Bool.false_or, Bool.true_or,
        Bool.and_true]
    | true =>
      rw [show filterOnCol ⟨df.names, df.rows.filter
            (fun r => keepCell matchesJobPat (rowCell df.names r (str "job")))⟩
            (str "workflow") matchesWorkflowPat
          = ⟨df.names, (df.rows.filter
              (fun r => keepCell matchesJobPat (rowCell df.names r (str "job")))).filter
              (fun r => keepCell matchesWorkflowPat (rowCell df.names r (str "workflow")))⟩ from by
        have : Table.hasCol ⟨df.names, df.rows.filter
            (fun r => keepCell matchesJobPat (rowCell df.names r (str "job")))⟩
            (str "workflow") = true := hw
        simp [filterOnCol, this]]
      rw [List.filter_filter]
      simp only [hj, hw, Bool.not_true, Bool.false_or]
      refine congrArg (fun rs => Table.mk df.names rs) ?_
      exact List.filter_congr (fun r _ => Bool.and_comm _ _)

/-! ## Merger (`merge_usage_performance`)

The merge is the source's four steps on top of the polars join semantics
it invokes: the explicit key guard, the `_perf` rename, a full outer join
on the keys with `coalesce=True` (null keys never match — polars
`join_nulls` defaults to false — and each side's unmatched rows are
null-filled), the coalesce loop, and the final column drop (pre-1.0
polars `drop`, which silently ignores absent columns). -/

/-- The default join keys `("job", "workflow")`. -/
def defaultKeys : List Str := [str "job", str "workflow"]

/-- The collision suffix `"_perf"`. -/
def suffixPerf : Str := str "_perf"

/-- How a merge fails: the code's own `KeyError` (key in neither table),
or polars' `ColumnNotFoundError` when `join(on=keys)` cannot find a key
column on one of the two sides. -/
inductive MergeError where
  | missingKey (k : Str)
  | keyNotFound (k : Str)
deriving DecidableEq

deriving instance DecidableEq for Except

/-- The rename applied to one performance column: non-key columns whose
name also occurs in `usage` get the `_perf` suffix. -/
def renamePerfName (usage : Table) (keys : List Str) (c : Str) : Str :=
  if !keys.any (fun k => k = c) && usage.names.any (fun n => n = c) then
    c ++ suffixPerf
  else c

/-- `performance.rename(perf_renames)` as a pure name map.  When a `_perf`
target name is already taken in `performance`, the real `rename` raises a
polars `DuplicateError` that this map does not model; `MergeWF` excludes
such inputs, and no theorem below concludes success from an input on
which that error could fire. -/
def renamePerf (usage perf : Table) (keys : List Str) : Table :=
  ⟨perf.names.map (renamePerfName usage keys), perf.rows⟩

/-- Do a usage row and a performance row agree on every key?  A null key
cell never matches (polars `join_nulls=False`). -/
def keysMatch (keys : List Str) (uNames pNames : List Str) (u p : List Cell) : Bool :=
  keys.all (fun k =>
    match rowCell uNames u k with
    | none => false
    | some v => decide (rowCell pNames p k = some v))

/-- Is `n` not one of the join keys? -/
def nonKeyName (keys : List Str) (n : Str) : Bool := !keys.any (fun k => k = n)

/-- The non-key cells of a performance row, in column order. -/
def nonKeyCells (keys : List Str) (pNames : List Str) (p : List Cell) : List Cell :=
  ((pNames.zip p).filter (fun q => nonKeyName keys q.1)).map Prod.snd

/-- `usage.join(performance, on=keys, how="outer", coalesce=True)`: every
usage row paired with each matching performance row (null-filled on the
right when unmatched), followed by the unmatched performance rows
(null-filled on the left except for the coalesced key columns).  Output
columns are the usage columns followed by the performance non-key
columns; the model assumes the renamed performance names do not collide
with usage names (the `MergeWF` hypothesis of the theorems), which is
what makes polars keep them unsuffixed. -/
def joinOuter (keys : List Str) (usage perfR : Table) : Table :=
  let pNonKeyNames := perfR.names.filter (nonKeyName keys)
  let leftRows := usage.rows.flatMap (fun u =>
    let ms := perfR.rows.filter (fun p => keysMatch keys usage.names perfR.names u p)
    if ms.isEmpty then [u ++ List.replicate pNonKeyNames.length none]
    else ms.map (fun p => u ++ nonKeyCells keys perfR.names p))
  let rightRows := (perfR.rows.filter (fun p =>
      !(usage.rows.any (fun u => keysMatch keys usage.names perfR.names u p)))).map
    (fun p => usage.names.map (fun n =>
        if keys.any (fun k => k = n) then rowCell perfR.names p n else none)
      ++ nonKeyCells keys perfR.names p)
  ⟨usage.names ++ pNonKeyNames, leftRows ++ rightRows⟩

/-- `pl.coalesce(a, b)`: first non-null of the two. -/
def coalesceCell (a b : Cell) : Cell :=
  match a with
  | some v => some v
  | none => b

/-- `merged.with_columns(expr.alias(n))` for a row-wise expression:
replace the column in place when present, append it otherwise. -/
def withColumnRowwise (t : Table) (n : Str) (f : List Cell → Cell) : Table :=
  match t.names.findIdx? (fun m => m = n) with
  | some i => ⟨t.names, t.rows.map (fun r => r.set i (f r))⟩
  | none => ⟨t.names ++ [n], t.rows.map (fun r => r ++ [f r])⟩

/-- The coalesce loop: for every non-key usage column `c` (in column
order) whose suffixed partner `c_perf` is a merged column, overwrite `c`
with `coalesce(c_perf, c)` and remember `c_perf` for dropping. -/
def coalesceLoop (usageNames : List Str) (keys : List Str) (m0 : Table) :
    Table × List Str :=
  match usageNames with
  | [] => (m0, [])
  | c :: rest =>
    if !(keys.any (fun k => k = c)) && m0.names.any (fun n => n = c ++ suffixPerf) then
      let m1 := withColumnRowwise m0 c (fun r =>
        coalesceCell (rowCell m0.names r (c ++ suffixPerf)) (rowCell m0.names r c))
      let res := coalesceLoop rest keys m1
      (res.1, (c ++ suffixPerf) :: res.2)
    else coalesceLoop rest keys m0

/-- `merged.drop(to_drop)` with pre-1.0 polars semantics: listed columns
are removed where present, absent names are ignored. -/
def dropCols (t : Table) (toDrop : List Str) : Table :=
  ⟨t.names.filter (fun n => !toDrop.any (fun d => d = n)),
   t.rows.map (fun r =>
     ((t.names.zip r).filter (fun q => !toDrop.any (fun d => d = q.1))).map Prod.snd)⟩

/-- `merge_usage_performance` from `parser.py`; `keys` is the `on`
parameter (default `("job", "workflow")` at the call sites).  The two
error cases are the code's own `KeyError` guard and the join's
column-not-found failure; the rename's `DuplicateError` path (see
`renamePerf`) is not modelled, so `.ok` here tracks program success only
on inputs free of that collision — the domain `MergeWF` names. -/
def mergeUsagePerformance (usage performance : Table) (keys : List Str) :
    Except MergeError Table :=
  match keys.find? (fun k =>
      !usage.names.any (fun n => n = k) && !performance.names.any (fun n => n = k)) with
  | some k => .error (.missingKey k)
  | none =>
    let perfR := renamePerf usage performance keys
    match keys.find? (fun k =>
        !(usage.names.any (fun n => n = k) && perfR.names.any (fun n => n = k))) with
    | some k => .error (.keyNotFound k)
    | none =>
      let merged := joinOuter keys usage perfR
      let res := coalesceLoop usage.names keys merged
      .ok (dropCols res.1 (res.2 ++ [str "runner_type", str "runner_labels"]))

/-! ## Named-cell access toolkit -/

theorem names_any_iff (l : List Str) (k : Str) :
    (l.any (fun n => n = k)) = true ↔ k ∈ l := by
  simp only [List.any_eq_true, decide_eq_true_eq]
  constructor
  · rintro ⟨n, hn, rfl⟩; exact hn
  · intro hk; exact ⟨k, hk, rfl⟩

theorem rowCell_nil_left (r : List Cell) (n : Str) : rowCell [] r n = none := rfl

theorem rowCell_nil_right (names : List Str) (n : Str) : rowCell names [] n = none := by
  unfold rowCell
  rw [List.zip_nil_right]
  rfl

theorem rowCell_cons (m : Str) (ms : List Str) (x : Cell) (xs : List Cell) (n : Str) :
    rowCell (m :: ms) (x :: xs) n = if m = n then x else rowCell ms xs n := by
  unfold rowCell
  rw [List.zip_cons_cons, List.find?_cons]
  by_cases hmn : m = n
  · simp [hmn]
  · simp [hmn]

theorem rowCell_append_left {names₁ names₂ : List Str} {r₁ r₂ : List Cell} {n : Str}
    (hlen : names₁.length = r₁.length) (hmem : n ∈ names₁) :
    rowCell (names₁ ++ names₂) (r₁ ++ r₂) n = rowCell names₁ r₁ n := by
  induction names₁ generalizing r₁ with
  | nil => simp at hmem
  | cons m ms ih =>
    cases r₁ with
    | nil => simp at hlen
    | cons x xs =>
      rw [List.cons_append, List.cons_append, rowCell_cons, rowCell_cons]
      by_cases hmn : m = n
      · rw [if_pos hmn, if_pos hmn]
      · rw [if_neg hmn, if_neg hmn]
        rcases List.mem_cons.mp hmem with h | h
        · exact absurd h.symm hmn
        · exact ih (by simpa using hlen) h

theorem rowCell_append_right {names₁ names₂ : List Str} {r₁ r₂ : List Cell} {n : Str}
    (hlen : names₁.length = r₁.length) (hmem : n ∉ names₁) :
    rowCell (names₁ ++ names₂) (r₁ ++ r₂) n = rowCell names₂ r₂ n := by
  induction names₁ generalizing r₁ with
  | nil =>
    cases r₁ with
    | nil => rfl
    | cons x xs => simp at hlen
  | cons m ms ih =>
    cases r₁ with
    | nil => simp at hlen
    | cons x xs =>
      rw [List.cons_append, List.cons_append, rowCell_cons]
      rw [if_neg (fun h : m = n => hmem (h ▸ List.mem_cons_self m ms))]
      exact ih (by simpa using hlen) (fun h => hmem (List.mem_cons_of_mem m h))

theorem rowCell_replicate_none (names : List Str) (k : Nat) (n : Str) :
    rowCell names (List.replicate k none) n = none := by
  induction names generalizing k with
  | nil => rfl
  | cons m ms ih =>
    cases k with
    | zero => exact rowCell_nil_right _ n
    | succ j =>
      rw [List.replicate_succ, rowCell_cons]
      by_cases hmn : m = n
      · rw [if_pos hmn]
      · rw [if_neg hmn]; exact ih j

theorem rowCell_map_self {names : List Str} {n : Str} (f : Str → Cell)
    (hmem : n ∈ names) : rowCell names (names.map f) n = f n := by
  induction names with
  | nil => simp at hmem
  | cons m ms ih =>
    rw [List.map_cons, rowCell_cons]
    by_cases hmn : m = n
    · rw [if_pos hmn, hmn]
    · rw [if_neg hmn]
      rcases List.mem_cons.mp hmem with h | h
      · exact absurd h.symm hmn
      · exact ih h

theorem rowCell_set_ne {names : List Str} {r : List Cell} {i : Nat} {v : Cell} {n : Str}
    (hne : names.getD i (str "") ≠ n) :
    rowCell names (r.set i v) n = rowCell names r n := by
  induction names generalizing r i with
  | nil => rfl
  | cons m ms ih =>
    cases r with
    | nil => rfl
    | cons x xs =>
      cases i with
      | zero =>
        rw [List.set_cons_zero, rowCell_cons, rowCell_cons]
        rw [if_neg (by simpa using hne), if_neg (by simpa using hne)]
      | succ j =>
        rw [List.set_cons_succ, rowCell_cons, rowCell_cons]
        by_cases hmn : m = n
        · rw [if_pos hmn, if_pos hmn]
        · rw [if_neg hmn, if_neg hmn]
          exact ih (by simpa using hne)

theorem rowCell_set_self {names : List Str} {r : List Cell} {i : Nat} {v : Cell} {n : Str}
    (hidx : names.findIdx? (fun m => m = n) = some i) (hlt : i < r.length) :
    rowCell names (r.set i v) n = v := by
  induction names generalizing r i with
  | nil => simp at hidx
  | cons m ms ih =>
    cases r with
    | nil => simp at hlt
    | cons x xs =>
      rw [List.findIdx?_cons, List.findIdx?_succ] at hidx
      by_cases hmn : m = n
      · rw [if_pos (by simp [hmn])] at hidx
        have h0 : i = 0 := by
          have := Option.some.inj hidx
          omega
        subst h0
        rw [List.set_cons_zero, rowCell_cons, if_pos hmn]
      · rw [if_neg (by simp [hmn])] at hidx
        rcases Option.map_eq_some'.mp hidx with ⟨j, hj, hval⟩
        subst hval
        rw [List.set_cons_succ, rowCell_cons, if_neg hmn]
        exact ih hj (by simpa using hlt)

/-! ## C4: the denylist -/

theorem not_mem_dropCols {t : Table} {toDrop : List Str} {d : Str} (hd : d ∈ toDrop) :
    d ∉ (dropCols t toDrop).names := by
  intro hmem
  have hpred := (List.mem_filter.mp hmem).2
  simp only [Bool.not_eq_true'] at hpred
  rw [List.any_eq_false] at hpred
  have := hpred d hd
  simp at this

/-- C4 — Denylist law: whenever `merge_usage_performance` returns a table,
`runner_type` and `runner_labels` are not among its columns (the final
`drop` lists them unconditionally, and pre-1.0 polars `drop` ignores the
names when absent rather than failing). -/
theorem merge_denylist (usage performance m : Table)
    (h : mergeUsagePerformance usage performance defaultKeys = .ok m) :
    str "runner_type" ∉ m.names ∧ str "runner_labels" ∉ m.names := by
  unfold mergeUsagePerformance at h
  split at h
  · exact absurd h (by simp)
  · simp only [] at h
    split at h
    · exact absurd h (by simp)
    · have hm := Except.ok.inj h
      subst hm
      constructor
      · exact not_mem_dropCols (by simp)
      · exact not_mem_dropCols (by simp)

/-- Example usage table (no `runner_type`/`runner_labels` anywhere). -/
def exUsage : Table :=
  ⟨[str "job", str "workflow", str "total_minutes"],
   [[some (Val.vStr (str "A")), some (Val.vStr (str "W")), some (Val.vInt 1)],
    [some (Val.vStr (str "B")), some (Val.vStr (str "W")), some (Val.vInt 2)]]⟩

/-- Example performance table. -/
def exPerf : Table :=
  ⟨[str "job", str "workflow", str "failure_rate"],
   [[some (Val.vStr (str "A")), some (Val.vStr (str "W")), some (Val.vInt 10)],
    [some (Val.vStr (str "C")), some (Val.vStr (str "W")), some (Val.vInt 20)]]⟩

/-- The merge of `exUsage` and `exPerf`: an outer join with one matched
pair, one usage-only row and one performance-only row. -/
def exMerged : Table :=
  ⟨[str "job", str "workflow", str "total_minutes", str "failure_rate"],
   [[some (Val.vStr (str "A")), some (Val.vStr (str "W")), some (Val.vInt 1),
     some (Val.vInt 10)],
    [some (Val.vStr (str "B")), some (Val.vStr (str "W")), some (Val.vInt 2), none],
    [some (Val.vStr (str "C")), some (Val.vStr (str "W")), none, some (Val.vInt 20)]]⟩

theorem merge_denylist_witness :
    str "runner_type" ∉ exMerged.names ∧ str "runner_labels" ∉ exMerged.names :=
  merge_denylist exUsage exPerf exMerged (by decide)

/-! ## C3: the key precondition -/

theorem append_suffixPerf_ne {c k : Str} (hk : k.getLast? ≠ some 'f') :
    c ++ suffixPerf ≠ k := by
  intro h
  apply hk
  rw [← h, List.getLast?_append]
  rfl

theorem defaultKeys_getLast_ne_f {k : Str} (hk : k ∈ defaultKeys) :
    k.getLast? ≠ some 'f' := by
  rcases List.mem_cons.mp hk with rfl | hk
  · decide
  · rcases List.mem_cons.mp hk with rfl | hk
    · decide
    · simp at hk

theorem mem_renamePerf_names_iff {u p : Table} {k : Str}
    (hkey : k ∈ defaultKeys) (hlast : k.getLast? ≠ some 'f') :
    k ∈ (renamePerf u p defaultKeys).names ↔ k ∈ p.names := by
  unfold renamePerf renamePerfName
  simp only [List.mem_map]
  constructor
  · rintro ⟨c, hc, hrc⟩
    by_cases hcond : (!defaultKeys.any (fun k' => k' = c) &&
        u.names.any (fun n => n = c)) = true
    · rw [if_pos hcond] at hrc
      exact absurd hrc (append_suffixPerf_ne hlast)
    · rw [if_neg hcond] at hrc
      exact hrc ▸ hc
  · intro hk
    refine ⟨k, hk, ?_⟩
    rw [if_neg ?_]
    simp only [Bool.and_eq_true, Bool.not_eq_true']
    rintro ⟨hno, -⟩
    have htrue := (names_any_iff defaultKeys k).mpr hkey
    rw [hno] at htrue
    exact Bool.false_ne_true htrue

/-- C3 counterexample — Scenario 6 fails on the code: with `usage` lacking
`workflow` and `performance` having it, the code's own guard passes (the
key exists in one table) but `usage.join(performance, on=["job",
"workflow"])` cannot resolve `workflow` in `usage` and polars raises a
column-not-found error; no merged table is produced. -/
theorem merge_one_sided_key_counterexample :
    mergeUsagePerformance
      ⟨[str "job"], [[some (Val.vStr (str "Build"))]]⟩
      ⟨[str "job", str "workflow"],
       [[some (Val.vStr (str "Build")), some (Val.vStr (str "CI"))]]⟩
      defaultKeys = .error (.keyNotFound (str "workflow")) := by decide

/-- The join the merger performs before coalescing and dropping. -/
def mergeJoined (u p : Table) (keys : List Str) : Table :=
  joinOuter keys u (renamePerf u p keys)

/-- The table the merger returns on success. -/
def mergeResult (u p : Table) (keys : List Str) : Table :=
  dropCols (coalesceLoop u.names keys (mergeJoined u p keys)).1
    ((coalesceLoop u.names keys (mergeJoined u p keys)).2 ++
      [str "runner_type", str "runner_labels"])

theorem mergeUsagePerformance_eq (u p : Table) (keys : List Str) :
    mergeUsagePerformance u p keys =
      match keys.find? (fun k =>
          !u.names.any (fun n => n = k) && !p.names.any (fun n => n = k)) with
      | some k => .error (.missingKey k)
      | none =>
        match keys.find? (fun k =>
            !(u.names.any (fun n => n = k) &&
              (renamePerf u p keys).names.any (fun n => n = k))) with
        | some k => .error (.keyNotFound k)
        | none => .ok (mergeResult u p keys) := rfl

theorem names_any_eq_false {l : List Str} {k : Str} (h : k ∉ l) :
    (l.any fun n => n = k) = false := by
  rw [Bool.eq_false_iff]
  intro hcon
  exact h ((names_any_iff l k).mp hcon)

theorem merge_key_precondition_aux (u p : Table) :
    ((∃ k, mergeUsagePerformance u p defaultKeys = .error (.missingKey k)) ↔
      ∃ k ∈ defaultKeys, k ∉ u.names ∧ k ∉ p.names) ∧
    ((∃ m, mergeUsagePerformance u p defaultKeys = .ok m) ↔
      ∀ k ∈ defaultKeys, k ∈ u.names ∧ k ∈ p.names) := by
  cases hf1 : defaultKeys.find? (fun k =>
      !u.names.any (fun n => n = k) && !p.names.any (fun n => n = k)) with
  | some k =>
    have hmerge : mergeUsagePerformance u p defaultKeys = .error (.missingKey k) := by
      rw [mergeUsagePerformance_eq, hf1]
    have hk := List.mem_of_find?_eq_some hf1
    have hpred := List.find?_some hf1
    simp only [Bool.and_eq_true, Bool.not_eq_true'] at hpred
    have hku : k ∉ u.names := by
      intro hmem
      have he := (names_any_iff u.names k).mpr hmem
      rw [hpred.1] at he
      exact Bool.false_ne_true he
    have hkp : k ∉ p.names := by
      intro hmem
      have he := (names_any_iff p.names k).mpr hmem
      rw [hpred.2] at he
      exact Bool.false_ne_true he
    constructor
    · exact iff_of_true ⟨k, hmerge⟩ ⟨k, hk, hku, hkp⟩
    · refine iff_of_false ?_ ?_
      · rintro ⟨m, hm⟩
        rw [hmerge] at hm
        exact absurd hm (by simp)
      · intro hall
        exact hku (hall k hk).1
  | none =>
    have hf1' := List.find?_eq_none.mp hf1
    cases hf2 : defaultKeys.find? (fun k =>
        !(u.names.any (fun n => n = k) &&
          (renamePerf u p defaultKeys).names.any (fun n => n = k))) with
    | some k =>
      have hmerge : mergeUsagePerformance u p defaultKeys = .error (.keyNotFound k) := by
        rw [mergeUsagePerformance_eq, hf1, hf2]
      have hk := List.mem_of_find?_eq_some hf2
      have hpred := List.find?_some hf2
      simp only [Bool.not_eq_true'] at hpred
      have hnot : ¬(k ∈ u.names ∧ k ∈ p.names) := by
        rintro ⟨h1, h2⟩
        have e1 := (names_any_iff u.names k).mpr h1
        have e2 := (names_any_iff (renamePerf u p defaultKeys).names k).mpr
          ((mem_renamePerf_names_iff hk (defaultKeys_getLast_ne_f hk)).mpr h2)
        rw [e1, e2] at hpred
        simp at hpred
      constructor
      · refine iff_of_false ?_ ?_
        · rintro ⟨k', hk'⟩
          rw [hmerge] at hk'
          have := Except.error.inj hk'
          exact absurd this (by simp)
        · rintro ⟨k', hk', h1, h2⟩
          apply hf1' k' hk'
          rw [names_any_eq_false h1, names_any_eq_false h2]
          rfl
      · refine iff_of_false ?_ ?_
        · rintro ⟨m, hm⟩
          rw [hmerge] at hm
          exact absurd hm (by simp)
        · intro hall
          exact hnot ⟨(hall k hk).1, (hall k hk).2⟩
    | none =>
      have hf2' := List.find?_eq_none.mp hf2
      have hmerge : mergeUsagePerformance u p defaultKeys
          = .ok (mergeResult u p defaultKeys) := by
        rw [mergeUsagePerformance_eq, hf1, hf2]
      constructor
      · refine iff_of_false ?_ ?_
        · rintro ⟨k', hk'⟩
          rw [hmerge] at hk'
          exact absurd hk' (by simp)
        · rintro ⟨k', hk', h1, h2⟩
          apply hf1' k' hk'
          rw [names_any_eq_false h1, names_any_eq_false h2]
          rfl
      · refine iff_of_true ⟨_, hmerge⟩ ?_
        intro k hk
        have hthis := hf2' k hk
        simp only [Bool.not_eq_true, Bool.not_eq_false', Bool.and_eq_true] at hthis
        rcases hthis with ⟨e1, e2⟩
        exact ⟨(names_any_iff _ _).mp e1,
          (mem_renamePerf_names_iff hk (defaultKeys_getLast_ne_f hk)).mp
            ((names_any_iff _ _).mp e2)⟩

/-- C3 (amended) — Merge key precondition: the merger raises its own
`MissingKeyError` exactly when some declared join key is in neither input
table, and then no join is attempted, so no partial merge exists (the
guard runs before any rename or join, which makes this equivalence hold
on every input); and a merged table is returned only if every key is
present in *both* tables.  A key present in only one table — the claim's
Scenario 6 — therefore cannot make the merge succeed: it passes the
guard, but the join cannot resolve the key column on the other side.
(Only this necessary direction is claimed: two-sided keys alone do not
guarantee success, since later stages of the real merge can still raise,
e.g. the `_perf` rename when the target name is already taken.) -/
theorem merge_key_precondition (u p : Table) :
    ((∃ k, mergeUsagePerformance u p defaultKeys = .error (.missingKey k)) ↔
      ∃ k ∈ defaultKeys, k ∉ u.names ∧ k ∉ p.names) ∧
    (∀ m, mergeUsagePerformance u p defaultKeys = .ok m →
      ∀ k ∈ defaultKeys, k ∈ u.names ∧ k ∈ p.names) :=
  ⟨(merge_key_precondition_aux u p).1,
    fun m hm => (merge_key_precondition_aux u p).2.mp ⟨m, hm⟩⟩

theorem merge_ok_keys {u p m : Table}
    (h : mergeUsagePerformance u p defaultKeys = .ok m) :
    ∀ k ∈ defaultKeys, k ∈ u.names ∧ k ∈ p.names :=
  (merge_key_precondition_aux u p).2.mp ⟨m, h⟩

theorem merge_ok_value {u p m : Table}
    (h : mergeUsagePerformance u p defaultKeys = .ok m) :
    m = mergeResult u p defaultKeys := by
  rw [mergeUsagePerformance_eq] at h
  split at h
  · exact absurd h (by simp)
  · split at h
    · exact absurd h (by simp)
    · exact (Except.ok.inj h).symm

theorem keysMatch_key_eq {keys uN pN : List Str} {u q : List Cell}
    (h : keysMatch keys uN pN u q = true) {k : Str} (hk : k ∈ keys) :
    rowCell uN u k = rowCell pN q k := by
  unfold keysMatch at h
  rw [List.all_eq_true] at h
  have hthis := h k hk
  cases hc : rowCell uN u k with
  | none => rw [hc] at hthis; simp at hthis
  | some v =>
    rw [hc] at hthis
    simp only [decide_eq_true_eq] at hthis
    exact hthis.symm

/-! ## C2: outer-join completeness -/

/-- The name-collision-free domain on which the model's join coincides
with polars (no `_perf`-suffixed name already present on either side, so
the rename neither duplicates a name nor forces polars to `_right`-suffix
a column), together with plain well-formedness of both frames. -/
def MergeWF (usage perf : Table) : Prop :=
  usage.WF ∧ perf.WF ∧
  (∀ c ∈ usage.names, (c ++ suffixPerf) ∉ usage.names) ∧
  (∀ c ∈ usage.names, (c ++ suffixPerf) ∉ perf.names)

/-- One iteration of the coalesce loop, as it acts on a single row. -/
def coalRowStep (names keys : List Str) (r : List Cell) (c : Str) : List Cell :=
  if !(keys.any (fun k => k = c)) && names.any (fun n => n = c ++ suffixPerf) then
    match names.findIdx? (fun m => m = c) with
    | some i =>
      r.set i (coalesceCell (rowCell names r (c ++ suffixPerf)) (rowCell names r c))
    | none => r
  else r

/-- The whole coalesce loop, as it acts on a single row. -/
def coalRow (names keys : List Str) : List Str → List Cell → List Cell
  | [], r => r
  | c :: rest, r => coalRow names keys rest (coalRowStep names keys r c)

theorem findIdx?_getD {l : List Str} {p : Str → Bool} {i : Nat}
    (h : l.findIdx? p = some i) : p (l.getD i (str "")) = true ∧ i < l.length := by
  induction l generalizing i with
  | nil => simp at h
  | cons m ms ih =>
    rw [List.findIdx?_cons, List.findIdx?_succ] at h
    by_cases hm : p m = true
    · rw [if_pos hm] at h
      have h0 : i = 0 := by
        have := Option.some.inj h
        omega
      subst h0
      exact ⟨hm, by simp⟩
    · rw [if_neg hm] at h
      rcases Option.map_eq_some'.mp h with ⟨j, hj, hval⟩
      subst hval
      obtain ⟨h1, h2⟩ := ih hj
      exact ⟨h1, by simpa using h2⟩

theorem withColumnRowwise_mem {t : Table} {n : Str} (h : n ∈ t.names)
    (f : List Cell → Cell) :
    ∃ i, t.names.findIdx? (fun m => m = n) = some i ∧
      withColumnRowwise t n f = ⟨t.names, t.rows.map (fun r => r.set i (f r))⟩ := by
  have hi := List.findIdx?_eq_some_of_exists
    (p := fun m => decide (m = n)) ⟨n, h, decide_eq_true rfl⟩
  refine ⟨_, hi, ?_⟩
  unfold withColumnRowwise
  rw [hi]

theorem coalesceLoop_spec (keys : List Str) :
    ∀ (cols : List Str) (m0 : Table), (∀ c ∈ cols, c ∈ m0.names) →
    (coalesceLoop cols keys m0).1.names = m0.names ∧
    (coalesceLoop cols keys m0).1.rows = m0.rows.map (coalRow m0.names keys cols) ∧
    (coalesceLoop cols keys m0).2 =
      (cols.filter (fun c =>
        !(keys.any (fun k => k = c)) && m0.names.any (fun n => n = c ++ suffixPerf))).map
        (fun c => c ++ suffixPerf) := by
  intro cols
  induction cols with
  | nil =>
    intro m0 _
    refine ⟨rfl, ?_, rfl⟩
    simp [coalesceLoop, coalRow]
  | cons c rest ih =>
    intro m0 hmem
    by_cases hcond : (!(keys.any (fun k => k = c)) &&
        m0.names.any (fun n => n = c ++ suffixPerf)) = true
    · obtain ⟨i, hi, hw⟩ := withColumnRowwise_mem (hmem c (List.mem_cons_self c rest))
        (fun r => coalesceCell (rowCell m0.names r (c ++ suffixPerf)) (rowCell m0.names r c))
      have hstep : coalesceLoop (c :: rest) keys m0 =
          ((coalesceLoop rest keys (withColumnRowwise m0 c (fun r =>
            coalesceCell (rowCell m0.names r (c ++ suffixPerf)) (rowCell m0.names r c)))).1,
           (c ++ suffixPerf) ::
            (coalesceLoop rest keys (withColumnRowwise m0 c (fun r =>
            coalesceCell (rowCell m0.names r (c ++ suffixPerf)) (rowCell m0.names r c)))).2) := by
        rw [coalesceLoop]
        rw [if_pos hcond]
      have hm1names : (withColumnRowwise m0 c (fun r =>
          coalesceCell (rowCell m0.names r (c ++ suffixPerf)) (rowCell m0.names r c))).names
          = m0.names := by rw [hw]
      obtain ⟨ihn, ihr, ihd⟩ := ih (withColumnRowwise m0 c (fun r =>
          coalesceCell (rowCell m0.names r (c ++ suffixPerf)) (rowCell m0.names r c)))
        (fun c' hc' => by rw [hm1names]; exact hmem c' (List.mem_cons_of_mem c hc'))
      refine ⟨?_, ?_, ?_⟩
      · rw [hstep]
        simpa [hm1names] using ihn
      · rw [hstep]
        simp only []
        rw [ihr, hw]
        simp only [List.map_map]
        rw [show coalRow m0.names keys (c :: rest) = fun r =>
            coalRow m0.names keys rest (coalRowStep m0.names keys r c) from rfl]
        refine List.map_congr_left ?_
        intro r _
        simp only [Function.comp]
        rw [show coalRowStep m0.names keys r c = r.set i (coalesceCell
            (rowCell m0.names r (c ++ suffixPerf)) (rowCell m0.names r c)) from by
          unfold coalRowStep
          rw [if_pos hcond, hi]]
      · rw [hstep]
        simp only []
        rw [ihd, hm1names]
        simp only [List.filter_cons, hcond, if_true, List.map_cons]
    · have hstep : coalesceLoop (c :: rest) keys m0 = coalesceLoop rest keys m0 := by
        rw [coalesceLoop]
        rw [if_neg hcond]
      obtain ⟨ihn, ihr, ihd⟩ := ih m0
        (fun c' hc' => hmem c' (List.mem_cons_of_mem c hc'))
      refine ⟨?_, ?_, ?_⟩
      · rw [hstep, ihn]
      · rw [hstep, ihr]
        refine List.map_congr_left ?_
        intro r _
        rw [show coalRow m0.names keys (c :: rest) r =
            coalRow m0.names keys rest (coalRowStep m0.names keys r c) from rfl]
        rw [show coalRowStep m0.names keys r c = r from by
          unfold coalRowStep
          rw [if_neg hcond]]
      · rw [hstep, ihd]
        simp only [List.filter_cons, hcond, Bool.false_eq_true, if_false]

/-- Columns the coalesce loop never writes keep their value in every row. -/
theorem coalRow_rowCell_preserved {names keys : List Str} {n : Str} :
    ∀ (cols : List Str) (r : List Cell),
    (∀ c ∈ cols,
      (!(keys.any (fun k => k = c)) && names.any (fun m => m = c ++ suffixPerf)) = true →
      c ≠ n) →
    rowCell names (coalRow names keys cols r) n = rowCell names r n := by
  intro cols
  induction cols with
  | nil => intro r _; rfl
  | cons c rest ih =>
    intro r hsafe
    rw [show coalRow names keys (c :: rest) r =
        coalRow names keys rest (coalRowStep names keys r c) from rfl]
    rw [ih (coalRowStep names keys r c)
      (fun c' hc' h => hsafe c' (List.mem_cons_of_mem c hc') h)]
    by_cases hcond : (!(keys.any (fun k => k = c)) &&
        names.any (fun m => m = c ++ suffixPerf)) = true
    · have hcn := hsafe c (List.mem_cons_self c rest) hcond
      unfold coalRowStep
      rw [if_pos hcond]
      cases hidx : names.findIdx? (fun m => m = c) with
      | none => rfl
      | some i =>
        refine rowCell_set_ne ?_
        have := (findIdx?_getD hidx).1
        simp only [decide_eq_true_eq] at this
        rw [this]
        exact hcn
    · unfold coalRowStep
      rw [if_neg hcond]

/-- Reading a kept column after `dropCols`' row surgery gives the
original cell. -/
theorem rowCell_drop_filter {toDrop : List Str} {n : Str}
    (hn : (toDrop.any fun d => d = n) = false) :
    ∀ (names : List Str) (r : List Cell),
    rowCell (names.filter (fun m => !toDrop.any (fun d => d = m)))
      (((names.zip r).filter (fun q => !toDrop.any (fun d => d = q.1))).map Prod.snd) n
      = rowCell names r n := by
  intro names
  induction names with
  | nil => intro r; rfl
  | cons m ms ih =>
    intro r
    cases r with
    | nil =>
      rw [List.zip_nil_right]
      simp only [List.filter_nil, List.map_nil]
      rw [rowCell_nil_right, rowCell_nil_right]
    | cons x xs =>
      rw [List.zip_cons_cons]
      by_cases hm : (toDrop.any fun d => d = m) = false
      · rw [List.filter_cons_of_pos (by simp [hm]),
          List.filter_cons_of_pos (by simp [hm]), List.map_cons,
          rowCell_cons, rowCell_cons]
        by_cases hmn : m = n
        · rw [if_pos hmn, if_pos hmn]
        · rw [if_neg hmn, if_neg hmn]
          exact ih xs
      · have hmn : m ≠ n := by
          intro he
          rw [he, hn] at hm
          exact hm rfl
        rw [List.filter_cons_of_neg (by simpa using hm),
          List.filter_cons_of_neg (by simpa using hm),
          rowCell_cons, if_neg hmn]
        exact ih xs

/-- The rename step never moves or masks a key column: looking a key up
among the renamed performance names reads the same cell as among the
original names. -/
theorem rowCell_map_rename_key {u : Table} {keys : List Str} {k : Str}
    (hkany : (keys.any fun k' => k' = k) = true)
    (hsfx : ∀ c : Str, c ++ suffixPerf ≠ k) :
    ∀ (names : List Str) (q : List Cell),
    rowCell (names.map (renamePerfName u keys)) q k = rowCell names q k := by
  intro names
  induction names with
  | nil => intro q; rfl
  | cons m ms ih =>
    intro q
    cases q with
    | nil => rw [rowCell_nil_right, rowCell_nil_right]
    | cons x xs =>
      rw [List.map_cons, rowCell_cons, rowCell_cons]
      have hren : (renamePerfName u keys m = k) ↔ (m = k) := by
        unfold renamePerfName
        by_cases hcond : (!(keys.any fun k' => k' = m) && u.names.any fun n => n = m) = true
        · rw [if_pos hcond]
          constructor
          · intro h; exact absurd h (hsfx m)
          · intro h
            subst h
            simp only [hkany, Bool.not_true, Bool.false_and] at hcond
            exact absurd hcond (by simp)
        · rw [if_neg hcond]
      by_cases hmk : m = k
      · rw [if_pos hmk, if_pos (hren.mpr hmk)]
      · rw [if_neg hmk, if_neg (fun h => hmk (hren.mp h))]
        exact ih xs

/-- What the coalesce loop and the final drop, taken together, do to one
joined row. -/
def mergeRowFun (usage performance : Table) (keys : List Str) (row : List Cell) :
    List Cell :=
  (((mergeJoined usage performance keys).names.zip
      (coalRow (mergeJoined usage performance keys).names keys usage.names row)).filter
    (fun q => !((coalesceLoop usage.names keys (mergeJoined usage performance keys)).2
      ++ [str "runner_type", str "runner_labels"]).any (fun d => d = q.1))).map Prod.snd

theorem usage_names_sub_joined (usage performance : Table) (keys : List Str) :
    ∀ c ∈ usage.names, c ∈ (mergeJoined usage performance keys).names := by
  intro c hc
  exact List.mem_append_left _ hc

theorem mergeResult_rows_eq (usage performance : Table) :
    (mergeResult usage performance defaultKeys).rows =
      (mergeJoined usage performance defaultKeys).rows.map
        (mergeRowFun usage performance defaultKeys) := by
  obtain ⟨hn, hr, -⟩ := coalesceLoop_spec defaultKeys usage.names
    (mergeJoined usage performance defaultKeys)
    (usage_names_sub_joined usage performance defaultKeys)
  unfold mergeResult dropCols
  simp only [hr, List.map_map]
  refine List.map_congr_left ?_
  intro row _
  unfold mergeRowFun
  rw [hn]
  rfl

theorem mergeResult_names_eq (usage performance : Table) :
    (mergeResult usage performance defaultKeys).names =
      (mergeJoined usage performance defaultKeys).names.filter
        (fun nn => !((coalesceLoop usage.names defaultKeys
            (mergeJoined usage performance defaultKeys)).2
          ++ [str "runner_type", str "runner_labels"]).any (fun d => d = nn)) := by
  obtain ⟨hn, -, -⟩ := coalesceLoop_spec defaultKeys usage.names
    (mergeJoined usage performance defaultKeys)
    (usage_names_sub_joined usage performance defaultKeys)
  unfold mergeResult dropCols
  rw [hn]

/-- Reading an undropped, never-written column of the final merged table
gives the joined row's cell. -/
theorem mergeResult_read {usage performance : Table} {n : Str}
    (hdrop : (((coalesceLoop usage.names defaultKeys
          (mergeJoined usage performance defaultKeys)).2
        ++ [str "runner_type", str "runner_labels"]).any fun d => d = n) = false)
    (hsafe : ∀ c ∈ usage.names,
      (!(defaultKeys.any fun k => k = c) &&
        (mergeJoined usage performance defaultKeys).names.any
          (fun m => m = c ++ suffixPerf)) = true → c ≠ n)
    (row : List Cell) :
    rowCell (mergeResult usage performance defaultKeys).names
        (mergeRowFun usage performance defaultKeys row) n
      = rowCell (mergeJoined usage performance defaultKeys).names row n := by
  rw [mergeResult_names_eq]
  unfold mergeRowFun
  rw [rowCell_drop_filter hdrop]
  exact coalRow_rowCell_preserved usage.names row hsafe

theorem toDrop_any_eq_false {usage performance : Table} {n : Str}
    (hden1 : str "runner_type" ≠ n) (hden2 : str "runner_labels" ≠ n)
    (hnsfx : ∀ c ∈ usage.names, c ++ suffixPerf ≠ n) :
    (((coalesceLoop usage.names defaultKeys (mergeJoined usage performance defaultKeys)).2
      ++ [str "runner_type", str "runner_labels"]).any fun d => d = n) = false := by
  obtain ⟨-, -, hd⟩ := coalesceLoop_spec defaultKeys usage.names
    (mergeJoined usage performance defaultKeys)
    (usage_names_sub_joined usage performance defaultKeys)
  rw [List.any_append, hd]
  have h1 : ((List.filter (fun c => !(defaultKeys.any fun k => k = c) &&
        (mergeJoined usage performance defaultKeys).names.any
          (fun nn => nn = c ++ suffixPerf)) usage.names).map
      (fun c => c ++ suffixPerf)).any (fun d => d = n) = false := by
    rw [List.any_map, List.any_eq_false]
    intro c hc
    simp only [Function.comp_apply, decide_eq_true_eq]
    exact hnsfx c (List.mem_of_mem_filter hc)
  have h2 : (([str "runner_type", str "runner_labels"] : List Str).any
      fun d => d = n) = false := by
    simp only [List.any_cons, List.any_nil, Bool.or_false]
    rw [decide_eq_false hden1, decide_eq_false hden2]
    rfl
  rw [h1, h2]
  rfl

theorem cond_safe_key {usage : Table} {Jnames : List Str} {k : Str}
    (hk : k ∈ defaultKeys) :
    ∀ c ∈ usage.names,
      (!(defaultKeys.any fun k' => k' = c) &&
        Jnames.any (fun m => m = c ++ suffixPerf)) = true → c ≠ k := by
  intro c _ hcond he
  subst he
  have hany := (names_any_iff defaultKeys c).mpr hk
  rw [hany] at hcond
  simp at hcond

theorem key_not_suffixed {k : Str} (hk : k ∈ defaultKeys) :
    ∀ c : Str, c ++ suffixPerf ≠ k :=
  fun _ => append_suffixPerf_ne (defaultKeys_getLast_ne_f hk)

theorem key_drop_safe {usage performance : Table} {k : Str} (hk : k ∈ defaultKeys) :
    (((coalesceLoop usage.names defaultKeys
        (mergeJoined usage performance defaultKeys)).2
      ++ [str "runner_type", str "runner_labels"]).any fun d => d = k) = false := by
  refine toDrop_any_eq_false ?_ ?_ (fun c _ => key_not_suffixed hk c)
  · rcases List.mem_cons.mp hk with rfl | hk2
    · decide
    · rcases List.mem_cons.mp hk2 with rfl | hk3
      · decide
      · simp at hk3
  · rcases List.mem_cons.mp hk with rfl | hk2
    · decide
    · rcases List.mem_cons.mp hk2 with rfl | hk3
      · decide
      · simp at hk3

theorem mergeJoined_names (u p : Table) (keys : List Str) :
    (mergeJoined u p keys).names =
      u.names ++ (renamePerf u p keys).names.filter (nonKeyName keys) := rfl

theorem renamePerf_names (u p : Table) (keys : List Str) :
    (renamePerf u p keys).names = p.names.map (renamePerfName u keys) := rfl

theorem mergeJoined_left_mem {usage performance : Table} {r : List Cell}
    (hr : r ∈ usage.rows) :
    ∃ X, r ++ X ∈ (mergeJoined usage performance defaultKeys).rows := by
  unfold mergeJoined joinOuter
  simp only [List.mem_append, List.mem_flatMap]
  by_cases hms : ((renamePerf usage performance defaultKeys).rows.filter
      (fun p => keysMatch defaultKeys usage.names
        (renamePerf usage performance defaultKeys).names r p)).isEmpty = true
  · refine ⟨List.replicate ((renamePerf usage performance defaultKeys).names.filter
        (nonKeyName defaultKeys)).length none, Or.inl ⟨r, hr, ?_⟩⟩
    rw [if_pos hms]
    exact List.mem_singleton.mpr rfl
  · have hne : (renamePerf usage performance defaultKeys).rows.filter
        (fun p => keysMatch defaultKeys usage.names
          (renamePerf usage performance defaultKeys).names r p) ≠ [] := by
      intro hnil
      exact hms (List.isEmpty_iff.mpr hnil)
    obtain ⟨q, hq⟩ := List.exists_mem_of_ne_nil _ hne
    refine ⟨nonKeyCells defaultKeys (renamePerf usage performance defaultKeys).names q,
      Or.inl ⟨r, hr, ?_⟩⟩
    rw [if_neg hms]
    exact List.mem_map_of_mem _ hq

theorem mergeJoined_left_unmatched_mem {usage performance : Table} {r : List Cell}
    (hr : r ∈ usage.rows)
    (hms : ((renamePerf usage performance defaultKeys).rows.filter
      (fun p => keysMatch defaultKeys usage.names
        (renamePerf usage performance defaultKeys).names r p)).isEmpty = true) :
    r ++ List.replicate ((renamePerf usage performance defaultKeys).names.filter
        (nonKeyName defaultKeys)).length none
      ∈ (mergeJoined usage performance defaultKeys).rows := by
  unfold mergeJoined joinOuter
  simp only [List.mem_append, List.mem_flatMap]
  refine Or.inl ⟨r, hr, ?_⟩
  rw [if_pos hms]
  exact List.mem_singleton.mpr rfl

theorem mergeJoined_right_matched_mem {usage performance : Table} {u' q : List Cell}
    (hu : u' ∈ usage.rows) (hq : q ∈ performance.rows)
    (hm : keysMatch defaultKeys usage.names
      (renamePerf usage performance defaultKeys).names u' q = true) :
    u' ++ nonKeyCells defaultKeys (renamePerf usage performance defaultKeys).names q
      ∈ (mergeJoined usage performance defaultKeys).rows := by
  unfold mergeJoined joinOuter
  simp only [List.mem_append, List.mem_flatMap]
  refine Or.inl ⟨u', hu, ?_⟩
  have hqf : q ∈ (renamePerf usage performance defaultKeys).rows.filter
      (fun p => keysMatch defaultKeys usage.names
        (renamePerf usage performance defaultKeys).names u' p) :=
    List.mem_filter.mpr ⟨hq, hm⟩
  have hne : ¬((renamePerf usage performance defaultKeys).rows.filter
      (fun p => keysMatch defaultKeys usage.names
        (renamePerf usage performance defaultKeys).names u' p)).isEmpty = true := by
    intro hemp
    rw [List.isEmpty_iff] at hemp
    rw [hemp] at hqf
    simp at hqf
  rw [if_neg hne]
  exact List.mem_map_of_mem _ hqf

theorem mergeJoined_right_unmatched_mem {usage performance : Table} {q : List Cell}
    (hq : q ∈ performance.rows)
    (hnm : (usage.rows.any (fun u' => keysMatch defaultKeys usage.names
      (renamePerf usage performance defaultKeys).names u' q)) = false) :
    (usage.names.map (fun n => if defaultKeys.any (fun k => k = n)
        then rowCell (renamePerf usage performance defaultKeys).names q n else none))
      ++ nonKeyCells defaultKeys (renamePerf usage performance defaultKeys).names q
      ∈ (mergeJoined usage performance defaultKeys).rows := by
  unfold mergeJoined joinOuter
  simp only [List.mem_append]
  refine Or.inr (List.mem_map_of_mem _ (List.mem_filter.mpr ⟨hq, ?_⟩))
  rw [hnm]
  rfl

theorem suffixed_not_in_joined {usage performance : Table} {n : Str}
    (hnU : n ∈ usage.names) (hnotP : n ∉ performance.names)
    (hSfxU : ∀ c ∈ usage.names, (c ++ suffixPerf) ∉ usage.names)
    (hSfxP : ∀ c ∈ usage.names, (c ++ suffixPerf) ∉ performance.names) :
    (n ++ suffixPerf) ∉ (mergeJoined usage performance defaultKeys).names := by
  rw [mergeJoined_names]
  intro hmem
  rcases List.mem_append.mp hmem with hmem | hmem
  · exact hSfxU n hnU hmem
  · have hmem2 : (n ++ suffixPerf) ∈ (renamePerf usage performance defaultKeys).names :=
      List.mem_of_mem_filter hmem
    rw [renamePerf_names] at hmem2
    obtain ⟨c', hc', hrn⟩ := List.mem_map.mp hmem2
    unfold renamePerfName at hrn
    by_cases hcond : (!(defaultKeys.any fun k => k = c') &&
        usage.names.any fun nn => nn = c') = true
    · rw [if_pos hcond] at hrn
      have hcn : c' = n := List.append_cancel_right hrn
      subst hcn
      exact hnotP hc'
    · rw [if_neg hcond] at hrn
      subst hrn
      exact hSfxP n hnU hc'

/-- C2 — Outer-join completeness: when the merge succeeds (on the
collision-free domain `MergeWF`), every key-tuple of a usage row and of a
performance row appears in the merged table; an unmatched usage row keeps
its key-tuple with the surviving performance-only non-key columns
null-filled, and an unmatched performance row keeps its key-tuple with
the surviving usage-only non-key columns null-filled (no row loss). -/
theorem merge_outer_completeness (usage performance m : Table)
    (hwf : MergeWF usage performance)
    (h : mergeUsagePerformance usage performance defaultKeys = .ok m) :
    (∀ r ∈ usage.rows, ∃ r' ∈ m.rows,
      ∀ k ∈ defaultKeys, rowCell m.names r' k = rowCell usage.names r k) ∧
    (∀ q ∈ performance.rows, ∃ r' ∈ m.rows,
      ∀ k ∈ defaultKeys, rowCell m.names r' k = rowCell performance.names q k) ∧
    (∀ r ∈ usage.rows,
      (performance.rows.all (fun q => !keysMatch defaultKeys usage.names
        (renamePerf usage performance defaultKeys).names r q)) = true →
      ∃ r' ∈ m.rows,
        (∀ k ∈ defaultKeys, rowCell m.names r' k = rowCell usage.names r k) ∧
        ∀ n ∈ performance.names, n ∉ usage.names → nonKeyName defaultKeys n = true →
          str "runner_type" ≠ n → str "runner_labels" ≠ n →
          rowCell m.names r' n = none) ∧
    (∀ q ∈ performance.rows,
      (usage.rows.all (fun u' => !keysMatch defaultKeys usage.names
        (renamePerf usage performance defaultKeys).names u' q)) = true →
      ∃ r' ∈ m.rows,
        (∀ k ∈ defaultKeys, rowCell m.names r' k = rowCell performance.names q k) ∧
        ∀ n ∈ usage.names, n ∉ performance.names → nonKeyName defaultKeys n = true →
          str "runner_type" ≠ n → str "runner_labels" ≠ n →
          rowCell m.names r' n = none) := by
  obtain ⟨⟨hUnodup, hUrect⟩, ⟨hPnodup, hPrect⟩, hSfxU, hSfxP⟩ := hwf
  have hkeys := merge_ok_keys h
  have hval := merge_ok_value h
  subst hval
  have keyread : ∀ (row : List Cell) (k : Str), k ∈ defaultKeys →
      rowCell (mergeResult usage performance defaultKeys).names
        (mergeRowFun usage performance defaultKeys row) k
      = rowCell (mergeJoined usage performance defaultKeys).names row k :=
    fun row k hk => mergeResult_read (key_drop_safe hk) (cond_safe_key hk) row
  have hmm : ∀ row ∈ (mergeJoined usage performance defaultKeys).rows,
      mergeRowFun usage performance defaultKeys row
        ∈ (mergeResult usage performance defaultKeys).rows := by
    intro row hrow
    rw [mergeResult_rows_eq]
    exact List.mem_map_of_mem _ hrow
  refine ⟨?_, ?_, ?_, ?_⟩
  · intro r hr
    obtain ⟨X, hmemJ⟩ := mergeJoined_left_mem hr
    refine ⟨_, hmm _ hmemJ, ?_⟩
    intro k hk
    rw [keyread _ k hk, mergeJoined_names]
    exact rowCell_append_left (hUrect r hr).symm (hkeys k hk).1
  · intro q hq
    cases hb : usage.rows.any (fun u' => keysMatch defaultKeys usage.names
        (renamePerf usage performance defaultKeys).names u' q) with
    | true =>
      rw [List.any_eq_true] at hb
      obtain ⟨u', hu', hm⟩ := hb
      refine ⟨_, hmm _ (mergeJoined_right_matched_mem hu' hq hm), ?_⟩
      intro k hk
      rw [keyread _ k hk, mergeJoined_names,
        rowCell_append_left (hUrect u' hu').symm (hkeys k hk).1,
        keysMatch_key_eq hm hk, renamePerf_names]
      exact rowCell_map_rename_key ((names_any_iff _ _).mpr hk) (key_not_suffixed hk)
        performance.names q
    | false =>
      refine ⟨_, hmm _ (mergeJoined_right_unmatched_mem hq hb), ?_⟩
      intro k hk
      rw [keyread _ k hk, mergeJoined_names,
        rowCell_append_left (by simp) (hkeys k hk).1,
        rowCell_map_self _ (hkeys k hk).1,
        if_pos ((names_any_iff defaultKeys k).mpr hk), renamePerf_names]
      exact rowCell_map_rename_key ((names_any_iff _ _).mpr hk) (key_not_suffixed hk)
        performance.names q
  · intro r hr hall
    have hms : ((renamePerf usage performance defaultKeys).rows.filter
        (fun p => keysMatch defaultKeys usage.names
          (renamePerf usage performance defaultKeys).names r p)).isEmpty = true := by
      rw [List.isEmpty_iff, List.filter_eq_nil_iff]
      rw [List.all_eq_true] at hall
      intro q hq
      have hq2 := hall q hq
      simp only [Bool.not_eq_true'] at hq2
      rw [hq2]
      simp
    refine ⟨_, hmm _ (mergeJoined_left_unmatched_mem hr hms), ?_, ?_⟩
    · intro k hk
      rw [keyread _ k hk, mergeJoined_names]
      exact rowCell_append_left (hUrect r hr).symm (hkeys k hk).1
    · intro n hn hnu hnk hd1 hd2
      have hdrop := @toDrop_any_eq_false usage performance _
        hd1 hd2 (fun c hc he => hSfxP c hc (by rw [he]; exact hn))
      have hsafe : ∀ c ∈ usage.names,
          (!(defaultKeys.any fun k => k = c) &&
            (mergeJoined usage performance defaultKeys).names.any
              (fun mm => mm = c ++ suffixPerf)) = true → c ≠ n :=
        fun c hc _ he => hnu (he ▸ hc)
      rw [mergeResult_read hdrop hsafe, mergeJoined_names,
        rowCell_append_right (hUrect r hr).symm hnu]
      exact rowCell_replicate_none _ _ _
  · intro q hq hall
    have hb : (usage.rows.any fun u' => keysMatch defaultKeys usage.names
        (renamePerf usage performance defaultKeys).names u' q) = false := by
      rw [List.any_eq_false]
      intro u' hu'
      rw [List.all_eq_true] at hall
      have hu2 := hall u' hu'
      simp only [Bool.not_eq_true'] at hu2
      rw [hu2]
      simp
    refine ⟨_, hmm _ (mergeJoined_right_unmatched_mem hq hb), ?_, ?_⟩
    · intro k hk
      rw [keyread _ k hk, mergeJoined_names,
        rowCell_append_left (by simp) (hkeys k hk).1,
        rowCell_map_self _ (hkeys k hk).1,
        if_pos ((names_any_iff defaultKeys k).mpr hk), renamePerf_names]
      exact rowCell_map_rename_key ((names_any_iff _ _).mpr hk) (key_not_suffixed hk)
        performance.names q
    · intro n hn hnp hnk hd1 hd2
      have hnsfx : (n ++ suffixPerf) ∉ (mergeJoined usage performance defaultKeys).names :=
        suffixed_not_in_joined hn hnp hSfxU hSfxP
      have hdrop := @toDrop_any_eq_false usage performance _
        hd1 hd2 (fun c hc he => hSfxU c hc (by rw [he]; exact hn))
      have hsafe : ∀ c ∈ usage.names,
          (!(defaultKeys.any fun k => k = c) &&
            (mergeJoined usage performance defaultKeys).names.any
              (fun mm => mm = c ++ suffixPerf)) = true → c ≠ n := by
        intro c hc hcond he
        subst he
        simp only [Bool.and_eq_true] at hcond
        exact hnsfx ((names_any_iff _ _).mp hcond.2)
      rw [mergeResult_read hdrop hsafe, mergeJoined_names,
        rowCell_append_left (by simp) hn,
        rowCell_map_self _ hn]
      have hanyf : (defaultKeys.any fun k => k = n) = false := by
        unfold nonKeyName at hnk
        rw [Bool.not_eq_true'] at hnk
        exact hnk
      rw [hanyf]
      simp

theorem merge_outer_completeness_witness :
    (∀ r ∈ exUsage.rows, ∃ r' ∈ exMerged.rows,
      ∀ k ∈ defaultKeys, rowCell exMerged.names r' k = rowCell exUsage.names r k) ∧
    (∀ q ∈ exPerf.rows, ∃ r' ∈ exMerged.rows,
      ∀ k ∈ defaultKeys, rowCell exMerged.names r' k = rowCell exPerf.names q k) ∧
    (∀ r ∈ exUsage.rows,
      (exPerf.rows.all (fun q => !keysMatch defaultKeys exUsage.names
        (renamePerf exUsage exPerf defaultKeys).names r q)) = true →
      ∃ r' ∈ exMerged.rows,
        (∀ k ∈ defaultKeys, rowCell exMerged.names r' k = rowCell exUsage.names r k) ∧
        ∀ n ∈ exPerf.names, n ∉ exUsage.names → nonKeyName defaultKeys n = true →
          str "runner_type" ≠ n → str "runner_labels" ≠ n →
          rowCell exMerged.names r' n = none) ∧
    (∀ q ∈ exPerf.rows,
      (exUsage.rows.all (fun u' => !keysMatch defaultKeys exUsage.names
        (renamePerf exUsage exPerf defaultKeys).names u' q)) = true →
      ∃ r' ∈ exMerged.rows,
        (∀ k ∈ defaultKeys, rowCell exMerged.names r' k = rowCell exPerf.names q k) ∧
        ∀ n ∈ exUsage.names, n ∉ exPerf.names → nonKeyName defaultKeys n = true →
          str "runner_type" ≠ n → str "runner_labels" ≠ n →
          rowCell exMerged.names r' n = none) :=
  merge_outer_completeness exUsage exPerf exMerged
    ⟨⟨by decide, by decide⟩, ⟨by decide, by decide⟩, by decide, by decide⟩ (by decide)

/-! ## C1: the coalesce law -/

theorem coalRowStep_rowCell_ne {names keys : List Str} {r : List Cell} {c' n : Str}
    (hne : c' ≠ n) :
    rowCell names (coalRowStep names keys r c') n = rowCell names r n := by
  unfold coalRowStep
  by_cases hcond : (!(keys.any fun k => k = c') &&
      names.any fun nn => nn = c' ++ suffixPerf) = true
  · rw [if_pos hcond]
    cases hidx : names.findIdx? (fun m => m = c') with
    | none => rfl
    | some i =>
      refine rowCell_set_ne ?_
      have hgd := (findIdx?_getD hidx).1
      simp only [decide_eq_true_eq] at hgd
      rw [hgd]
      exact hne
  · rw [if_neg hcond]

theorem coalRowStep_length {names keys : List Str} {r : List Cell} {c' : Str} :
    (coalRowStep names keys r c').length = r.length := by
  unfold coalRowStep
  by_cases hcond : (!(keys.any fun k => k = c') &&
      names.any fun nn => nn = c' ++ suffixPerf) = true
  · rw [if_pos hcond]
    cases hidx : names.findIdx? (fun m => m = c') with
    | none => rfl
    | some i => exact List.length_set r i _
  · rw [if_neg hcond]

/-- Reading the coalesced column after the whole loop: its value is the
first non-null of the suffixed performance cell and the usage cell of the
original row. -/
theorem coalRow_rowCell_written {names keys : List Str} {c : Str} :
    ∀ (cols : List Str) (r : List Cell),
    cols.Nodup → c ∈ cols →
    (!(keys.any fun k => k = c) && names.any (fun m => m = c ++ suffixPerf)) = true →
    (∀ c' ∈ cols, c' ≠ c ++ suffixPerf) →
    c ∈ names →
    names.length ≤ r.length →
    rowCell names (coalRow names keys cols r) c =
      coalesceCell (rowCell names r (c ++ suffixPerf)) (rowCell names r c) := by
  intro cols
  induction cols with
  | nil =>
    intro r _ hc
    simp at hc
  | cons c' rest ih =>
    intro r hnodup hmemc hcond hsfx hcn hlen
    rw [show coalRow names keys (c' :: rest) r =
        coalRow names keys rest (coalRowStep names keys r c') from rfl]
    by_cases hcc : c' = c
    · subst hcc
      have hi := List.findIdx?_eq_some_of_exists
        (p := fun m => decide (m = c')) ⟨c', hcn, decide_eq_true rfl⟩
      have hstep : coalRowStep names keys r c' =
          r.set (names.findIdx (fun m => decide (m = c')))
            (coalesceCell (rowCell names r (c' ++ suffixPerf)) (rowCell names r c')) := by
        unfold coalRowStep
        rw [if_pos hcond, hi]
      rw [hstep]
      rw [coalRow_rowCell_preserved rest _
        (fun c'' hc'' _ he => (List.nodup_cons.mp hnodup).1 (by rw [← he]; exact hc''))]
      refine rowCell_set_self hi (lt_of_lt_of_le (findIdx?_getD hi).2 hlen)
    · have hc_rest : c ∈ rest := by
        rcases List.mem_cons.mp hmemc with hcase | hcase
        · exact absurd hcase.symm hcc
        · exact hcase
      have hpres1 := @coalRowStep_rowCell_ne names keys r c' c hcc
      have hpres2 := @coalRowStep_rowCell_ne names keys r c' (c ++ suffixPerf)
        (hsfx c' (List.mem_cons_self c' rest))
      have hlen2 : names.length ≤ (coalRowStep names keys r c').length := by
        rw [coalRowStep_length]
        exact hlen
      rw [ih _ (List.nodup_cons.mp hnodup).2 hc_rest hcond
        (fun x hx => hsfx x (List.mem_cons_of_mem c' hx)) hcn hlen2, hpres1, hpres2]

theorem nonKeyCells_length {keys : List Str} :
    ∀ (pNames : List Str) (q : List Cell), q.length = pNames.length →
    (nonKeyCells keys pNames q).length = (pNames.filter (nonKeyName keys)).length := by
  intro pNames
  induction pNames with
  | nil =>
    intro q hq
    simp only [List.length_nil] at hq
    rw [List.length_eq_zero] at hq
    subst hq
    rfl
  | cons mname ms ih =>
    intro q hq
    cases q with
    | nil => simp at hq
    | cons x xs =>
      unfold nonKeyCells
      rw [List.zip_cons_cons]
      by_cases hp : nonKeyName keys mname = true
      · rw [List.filter_cons_of_pos (by simpa using hp),
          List.filter_cons_of_pos (by simpa using hp), List.map_cons]
        simp only [List.length_cons, Nat.succ.injEq]
        exact ih xs (by simpa using hq)
      · rw [List.filter_cons_of_neg (by simpa using hp),
          List.filter_cons_of_neg (by simpa using hp)]
        exact ih xs (by simpa using hq)

theorem mergeJoined_rect {usage performance : Table}
    (hUrect : ∀ r ∈ usage.rows, r.length = usage.names.length)
    (hPrect : ∀ r ∈ performance.rows, r.length = performance.names.length) :
    ∀ row ∈ (mergeJoined usage performance defaultKeys).rows,
      row.length = (mergeJoined usage performance defaultKeys).names.length := by
  intro row hrow
  have hnames : (mergeJoined usage performance defaultKeys).names.length =
      usage.names.length + ((renamePerf usage performance defaultKeys).names.filter
        (nonKeyName defaultKeys)).length := by
    rw [mergeJoined_names, List.length_append]
  rw [hnames]
  have hprlen : ∀ q ∈ (renamePerf usage performance defaultKeys).rows,
      q.length = (renamePerf usage performance defaultKeys).names.length := by
    intro q hqmem
    rw [renamePerf_names, List.length_map]
    exact hPrect q hqmem
  unfold mergeJoined joinOuter at hrow
  simp only [List.mem_append, List.mem_flatMap] at hrow
  rcases hrow with ⟨u, hu, hmem⟩ | hmem
  · by_cases hms : ((renamePerf usage performance defaultKeys).rows.filter
        (fun p => keysMatch defaultKeys usage.names
          (renamePerf usage performance defaultKeys).names u p)).isEmpty = true
    · rw [if_pos hms] at hmem
      rw [List.mem_singleton.mp hmem]
      rw [List.length_append, List.length_replicate, hUrect u hu]
    · rw [if_neg hms] at hmem
      obtain ⟨q, hqf, hqe⟩ := List.mem_map.mp hmem
      subst hqe
      rw [List.length_append, hUrect u hu, nonKeyCells_length _ q
        (hprlen q (List.mem_of_mem_filter hqf))]
  · obtain ⟨q, hqf, hqe⟩ := List.mem_map.mp hmem
    subst hqe
    rw [List.length_append, List.length_map, nonKeyCells_length _ q
      (hprlen q (List.mem_of_mem_filter hqf))]

theorem mergeJoined_names_nodup {usage performance : Table}
    (hUnodup : usage.names.Nodup) (hPnodup : performance.names.Nodup)
    (hSfxU : ∀ c ∈ usage.names, (c ++ suffixPerf) ∉ usage.names)
    (hSfxP : ∀ c ∈ usage.names, (c ++ suffixPerf) ∉ performance.names) :
    (mergeJoined usage performance defaultKeys).names.Nodup := by
  rw [mergeJoined_names, List.nodup_append]
  refine ⟨hUnodup, ?_, ?_⟩
  · refine List.Nodup.filter _ ?_
    rw [renamePerf_names]
    refine List.Nodup.map_on ?_ hPnodup
    intro c1 h1 c2 h2 heq
    unfold renamePerfName at heq
    by_cases hc1 : (!(defaultKeys.any fun k => k = c1) &&
        usage.names.any fun nn => nn = c1) = true <;>
      by_cases hc2 : (!(defaultKeys.any fun k => k = c2) &&
        usage.names.any fun nn => nn = c2) = true
    · rw [if_pos hc1, if_pos hc2] at heq
      exact List.append_cancel_right heq
    · rw [if_pos hc1, if_neg hc2] at heq
      simp only [Bool.and_eq_true] at hc1
      have hc1u : c1 ∈ usage.names := (names_any_iff _ _).mp hc1.2
      exact absurd (heq ▸ h2) (hSfxP c1 hc1u)
    · rw [if_neg hc1, if_pos hc2] at heq
      simp only [Bool.and_eq_true] at hc2
      have hc2u : c2 ∈ usage.names := (names_any_iff _ _).mp hc2.2
      exact absurd (heq ▸ h1) (by exact fun hmem => hSfxP c2 hc2u hmem)
    · rw [if_neg hc1, if_neg hc2] at heq
      exact heq
  · intro a haU haP
    have hpred := (List.mem_filter.mp haP).2
    have haP2 : a ∈ (renamePerf usage performance defaultKeys).names :=
      List.mem_of_mem_filter haP
    rw [renamePerf_names] at haP2
    obtain ⟨c', hc', hrn⟩ := List.mem_map.mp haP2
    unfold renamePerfName at hrn
    by_cases hcond : (!(defaultKeys.any fun k => k = c') &&
        usage.names.any fun nn => nn = c') = true
    · rw [if_pos hcond] at hrn
      simp only [Bool.and_eq_true] at hcond
      exact hSfxU c' ((names_any_iff _ _).mp hcond.2) (hrn ▸ haU)
    · rw [if_neg hcond] at hrn
      subst hrn
      apply hcond
      unfold nonKeyName at hpred
      rw [hpred, (names_any_iff usage.names c').mpr haU]
      rfl

/-- C1 counterexample: a non-key column named `runner_type` present in
both inputs does not survive the merge at all — the final denylist drop
removes it — so no output column carries the coalesced values, contrary
to the claim's unrestricted "for every non-key column present in both
input tables". -/
theorem merge_coalesce_denylist_counterexample :
    mergeUsagePerformance
      ⟨[str "job", str "workflow", str "runner_type"],
       [[some (Val.vStr (str "J")), some (Val.vStr (str "W")), some (Val.vStr (str "x"))]]⟩
      ⟨[str "job", str "workflow", str "runner_type"],
       [[some (Val.vStr (str "J")), some (Val.vStr (str "W")), some (Val.vStr (str "y"))]]⟩
      defaultKeys =
      .ok ⟨[str "job", str "workflow"],
           [[some (Val.vStr (str "J")), some (Val.vStr (str "W"))]]⟩ ∧
    str "runner_type" ∈
      ([str "job", str "workflow", str "runner_type"] : List Str) ∧
    str "runner_type" ∉ ([str "job", str "workflow"] : List Str) := by
  refine ⟨by decide, by decide, by decide⟩

/-- C1 (amended) — Coalesce law: for a non-key column `c` present in both
inputs and outside the denylist (`runner_type`, `runner_labels`), on the
collision-free domain `MergeWF`, a successful merge keeps exactly one
output column named `c`, drops the suffixed `c_perf`, and its value in
each merged row is the performance-side value of the joined row when that
value is non-null, else the usage-side value, else null.  The merged rows
are, in order, the joined rows transformed by `mergeRowFun`. -/
theorem merge_coalesce_law (usage performance m : Table) (c : Str)
    (hwf : MergeWF usage performance)
    (h : mergeUsagePerformance usage performance defaultKeys = .ok m)
    (hcU : c ∈ usage.names) (hcP : c ∈ performance.names)
    (hknc : c ∉ defaultKeys)
    (hd1 : str "runner_type" ≠ c) (hd2 : str "runner_labels" ≠ c) :
    (c ++ suffixPerf) ∉ m.names ∧
    (c ∈ m.names ∧ m.names.Nodup) ∧
    m.rows = (mergeJoined usage performance defaultKeys).rows.map
      (mergeRowFun usage performance defaultKeys) ∧
    (∀ row ∈ (mergeJoined usage performance defaultKeys).rows,
      row.length = (mergeJoined usage performance defaultKeys).names.length) ∧
    ∀ row : List Cell,
      (mergeJoined usage performance defaultKeys).names.length ≤ row.length →
      rowCell m.names (mergeRowFun usage performance defaultKeys row) c =
        coalesceCell
          (rowCell (mergeJoined usage performance defaultKeys).names row (c ++ suffixPerf))
          (rowCell (mergeJoined usage performance defaultKeys).names row c) := by
  obtain ⟨⟨hUnodup, hUrect⟩, ⟨hPnodup, hPrect⟩, hSfxU, hSfxP⟩ := hwf
  have hval := merge_ok_value h
  subst hval
  have hcsfxJ : (c ++ suffixPerf) ∈ (mergeJoined usage performance defaultKeys).names := by
    rw [mergeJoined_names]
    refine List.mem_append_right _ ?_
    refine List.mem_filter.mpr ⟨?_, ?_⟩
    · rw [renamePerf_names]
      refine List.mem_map.mpr ⟨c, hcP, ?_⟩
      unfold renamePerfName
      rw [if_pos ?_]
      simp only [Bool.and_eq_true, Bool.not_eq_true']
      exact ⟨names_any_eq_false hknc, (names_any_iff _ _).mpr hcU⟩
    · unfold nonKeyName
      rw [names_any_eq_false ?_]
      · rfl
      · intro hmem
        exact append_suffixPerf_ne (defaultKeys_getLast_ne_f hmem) rfl
  have hcond : (!(defaultKeys.any fun k => k = c) &&
      (mergeJoined usage performance defaultKeys).names.any
        (fun nn => nn = c ++ suffixPerf)) = true := by
    rw [names_any_eq_false hknc, (names_any_iff _ _).mpr hcsfxJ]
    rfl
  obtain ⟨-, -, hCLdrop⟩ := coalesceLoop_spec defaultKeys usage.names
    (mergeJoined usage performance defaultKeys)
    (usage_names_sub_joined usage performance defaultKeys)
  have hsfxdrop : (c ++ suffixPerf) ∈ (coalesceLoop usage.names defaultKeys
      (mergeJoined usage performance defaultKeys)).2 ++
      [str "runner_type", str "runner_labels"] := by
    refine List.mem_append_left _ ?_
    rw [hCLdrop]
    exact List.mem_map_of_mem _ (List.mem_filter.mpr ⟨hcU, hcond⟩)
  have hkeepc : (((coalesceLoop usage.names defaultKeys
        (mergeJoined usage performance defaultKeys)).2
      ++ [str "runner_type", str "runner_labels"]).any fun d => d = c) = false :=
    toDrop_any_eq_false hd1 hd2 (fun d hd he => hSfxU d hd (by rw [he]; exact hcU))
  refine ⟨?_, ?_, mergeResult_rows_eq usage performance,
    mergeJoined_rect hUrect hPrect, ?_⟩
  · exact not_mem_dropCols hsfxdrop
  · rw [mergeResult_names_eq]
    constructor
    · refine List.mem_filter.mpr ⟨?_, ?_⟩
      · rw [mergeJoined_names]
        exact List.mem_append_left _ hcU
      · rw [hkeepc]
        rfl
    · exact (mergeJoined_names_nodup hUnodup hPnodup hSfxU hSfxP).filter _
  · intro row hlen
    have hsafe : ∀ c' ∈ usage.names, c' ≠ c ++ suffixPerf :=
      fun c' hc' he => hSfxU c hcU (by rw [← he]; exact hc')
    rw [mergeResult_names_eq]
    unfold mergeRowFun
    rw [rowCell_drop_filter hkeepc]
    exact coalRow_rowCell_written usage.names row hUnodup hcU hcond hsafe
      (List.mem_append_left _ hcU) hlen

/-- Scenario 2's usage table. -/
def scenUsage : Table :=
  ⟨[str "job", str "workflow", str "total_minutes"],
   [[some (Val.vStr (str "Build")), some (Val.vStr (str "CI")), some (Val.vInt 12)]]⟩

/-- Scenario 2's performance table. -/
def scenPerf : Table :=
  ⟨[str "job", str "workflow", str "total_minutes"],
   [[some (Val.vStr (str "Build")), some (Val.vStr (str "CI")), some (Val.vInt 15)]]⟩

/-- Scenario 2's merged table: performance wins, `total_minutes = 15`. -/
def scenMerged : Table :=
  ⟨[str "job", str "workflow", str "total_minutes"],
   [[some (Val.vStr (str "Build")), some (Val.vStr (str "CI")), some (Val.vInt 15)]]⟩

theorem merge_coalesce_law_witness :
    (str "total_minutes" ++ suffixPerf) ∉ scenMerged.names ∧
    (str "total_minutes" ∈ scenMerged.names ∧ scenMerged.names.Nodup) ∧
    scenMerged.rows = (mergeJoined scenUsage scenPerf defaultKeys).rows.map
      (mergeRowFun scenUsage scenPerf defaultKeys) ∧
    (∀ row ∈ (mergeJoined scenUsage scenPerf defaultKeys).rows,
      row.length = (mergeJoined scenUsage scenPerf defaultKeys).names.length) ∧
    ∀ row : List Cell,
      (mergeJoined scenUsage scenPerf defaultKeys).names.length ≤ row.length →
      rowCell scenMerged.names (mergeRowFun scenUsage scenPerf defaultKeys row)
          (str "total_minutes") =
        coalesceCell
          (rowCell (mergeJoined scenUsage scenPerf defaultKeys).names row
            (str "total_minutes" ++ suffixPerf))
          (rowCell (mergeJoined scenUsage scenPerf defaultKeys).names row
            (str "total_minutes")) :=
  merge_coalesce_law scenUsage scenPerf scenMerged (str "total_minutes")
    ⟨⟨by decide, by decide⟩, ⟨by decide, by decide⟩, by decide, by decide⟩
    (by decide) (by decide) (by decide) (by decide) (by decide) (by decide)

/-- Scenario 2 end to end: merging the usage row with `total_minutes = 12`
and the performance row with `total_minutes = 15` yields exactly one row,
with `total_minutes = 15`. -/
theorem merge_scenario2_eval :
    mergeUsagePerformance scenUsage scenPerf defaultKeys = .ok scenMerged ∧
    rowCell scenMerged.names (scenMerged.rows.getD 0 []) (str "total_minutes")
      = some (Val.vInt 15) ∧ scenMerged.rows.length = 1 := by
  refine ⟨by decide, by decide, by decide⟩

/-! ## Loader: numeric coercion (C6)

The loader's only failure-prone transformation: for each known numeric
column, `cast(pl.Int64)` inside a `try`, and on failure the *unguarded*
fallback `cast(pl.Utf8).str.replace_all(r"[^0-9-]+", "").cast(pl.Int64)`. -/

/-- `[0-9]`. -/
def isDigitChar (c : Char) : Bool := 48 ≤ c.toNat && c.toNat ≤ 57

/-- Value of a digit run. -/
def digitsToNat (ds : Str) : Nat := ds.foldl (fun acc d => acc * 10 + (d.toNat - 48)) 0

/-- Strict polars parse of a string as an `Int64`: an optional leading
minus, a non-empty digit run, and the value must fit in a signed 64-bit
integer. -/
def parseInt64 (s : Str) : Option Int :=
  match s with
  | '-' :: ds =>
    if ds ≠ [] ∧ ds.all isDigitChar = true ∧ digitsToNat ds ≤ 2 ^ 63 then
      some (-(digitsToNat ds : Int))
    else none
  | ds =>
    if ds ≠ [] ∧ ds.all isDigitChar = true ∧ digitsToNat ds < 2 ^ 63 then
      some ((digitsToNat ds : Int))
    else none

/-- Strict `cast(pl.Int64)` of one cell; `none` result means the cast
raised.  Nulls stay null, integers are kept, floats truncate toward zero
(within the 64-bit range), strings must parse. -/
def castCellInt64 : Cell → Option Cell
  | none => some none
  | some (Val.vInt n) => some (some (Val.vInt n))
  | some (Val.vFloat q) =>
    if -(2 ^ 63 : ℤ) ≤ q.num / q.den ∧ q.num / q.den < 2 ^ 63 then
      some (some (Val.vInt (q.num / q.den)))
    else none
  | some (Val.vStr s) => (parseInt64 s).map (fun n => some (Val.vInt n))

/-- Decimal rendering of an integer, as `cast(pl.Utf8)` produces it. -/
def intToStr (n : Int) : Str :=
  if n < 0 then '-' :: Nat.toDigits 10 n.natAbs else Nat.toDigits 10 n.toNat

/-- `replace_all(r"[^0-9-]+", "")`: delete every character that is not a
digit or a minus sign. -/
def stripNonDigitMinus (s : Str) : Str :=
  s.filter (fun c => isDigitChar c || c = '-')

/-- The fallback coercion of one cell:
`cast(pl.Utf8).str.replace_all(r"[^0-9-]+", "").cast(pl.Int64)`.
Float cells are outside the modelled domain (the loader's numeric columns
arrive from `read_csv` as strings or integers) and are mapped to a
failure. -/
def fallbackCell : Cell → Option Cell
  | none => some none
  | some (Val.vInt n) =>
    (parseInt64 (stripNonDigitMinus (intToStr n))).map (fun m => some (Val.vInt m))
  | some (Val.vStr s) =>
    (parseInt64 (stripNonDigitMinus s)).map (fun m => some (Val.vInt m))
  | some (Val.vFloat _) => none

/-- Casting a whole column strictly: every cell must convert, otherwise
the whole cast raises. -/
def castColWith (f : Cell → Option Cell) : List Cell → Option (List Cell)
  | [] => some []
  | cell :: rest =>
    match f cell, castColWith f rest with
    | some c', some rest' => some (c' :: rest')
    | _, _ => none

/-- The cells of column `i`, top to bottom. -/
def colCells (t : Table) (i : Nat) : List Cell := t.rows.map (fun r => r.getD i none)

/-- Overwrite column `i` with the given cells. -/
def setColCells (t : Table) (i : Nat) (newCells : List Cell) : Table :=
  ⟨t.names, (t.rows.zip newCells).map (fun pr => pr.1.set i pr.2)⟩

/-- One iteration of the loader's numeric-coercion loop for the column
named `n`: try the strict `Int64` cast; on failure run the strip-and-cast
fallback, whose own failure is uncaught and aborts the load. -/
def coerceOne (df : Table) (n : Str) : Except Str Table :=
  match df.names.findIdx? (fun m => m = n) with
  | none => .ok df
  | some i =>
    match castColWith castCellInt64 (colCells df i) with
    | some newCol => .ok (setColCells df i newCol)
    | none =>
      match castColWith fallbackCell (colCells df i) with
      | some newCol => .ok (setColCells df i newCol)
      | none => .error n

/-- The loop `for numeric in ("total_minutes", "job_runs")` of
`load_and_clean_csv`. -/
def coerceNumericColumns (df : Table) : Except Str Table :=
  match coerceOne df (str "total_minutes") with
  | .error e => .error e
  | .ok d1 => coerceOne d1 (str "job_runs")

/-- The two known numeric columns of the loader. -/
def numericCols : List Str := [str "total_minutes", str "job_runs"]

/-- C6 counterexample: a `total_minutes` column holding `"abc"` fails the
strict cast, then the fallback strips every non-digit character leaving
the empty string, whose cast fails as well — and that failure is raised
out of `load_and_clean_csv` instead of leaving the column as-is. -/
theorem coerce_fatal_counterexample :
    coerceNumericColumns
      ⟨[str "total_minutes"], [[some (Val.vStr (str "abc"))]]⟩
      = .error (str "total_minutes") := by decide

theorem castColWith_length {f : Cell → Option Cell} :
    ∀ {l l' : List Cell}, castColWith f l = some l' → l'.length = l.length := by
  intro l
  induction l with
  | nil =>
    intro l' h
    unfold castColWith at h
    rw [← Option.some.inj h]
  | cons cell rest ih =>
    intro l' h
    unfold castColWith at h
    cases hf : f cell with
    | none => rw [hf] at h; simp at h
    | some c' =>
      rw [hf] at h
      cases hr : castColWith f rest with
      | none => rw [hr] at h; simp at h
      | some rest' =>
        rw [hr] at h
        rw [← Option.some.inj h]
        simp only [List.length_cons, Nat.succ.injEq]
        exact ih hr

theorem list_setcol_ne {i j : Nat} (hne : i ≠ j) :
    ∀ (rows : List (List Cell)) (cs : List Cell),
    ((rows.zip cs).map (fun pr => pr.1.set i pr.2)).map (fun r => r.getD j none)
      = (rows.zip cs).map (fun pr => pr.1.getD j none) := by
  intro rows
  induction rows with
  | nil => intro cs; rfl
  | cons r rs ih =>
    intro cs
    cases cs with
    | nil => rfl
    | cons c cs' =>
      rw [List.zip_cons_cons, List.map_cons, List.map_cons, List.map_cons]
      congr 1
      · rw [List.getD_eq_getElem?_getD, List.getD_eq_getElem?_getD,
          List.getElem?_set_ne hne]
      · exact ih cs'

theorem zip_map_fst_of_length {α β : Type} :
    ∀ {l : List α} {l₂ : List β} (g : α → γ), l₂.length = l.length →
    (l.zip l₂).map (fun pr => g pr.1) = l.map g := by
  intro l
  induction l with
  | nil =>
    intro l₂ g h
    rfl
  | cons a as ih =>
    intro l₂ g h
    cases l₂ with
    | nil => simp at h
    | cons b bs =>
      rw [List.zip_cons_cons, List.map_cons, List.map_cons]
      congr 1
      exact ih g (by simpa using h)

theorem colCells_setColCells_ne {t : Table} {i j : Nat} {cs : List Cell}
    (hne : i ≠ j) (hlen : cs.length = t.rows.length) :
    colCells (setColCells t i cs) j = colCells t j := by
  unfold colCells setColCells
  rw [list_setcol_ne hne]
  exact zip_map_fst_of_length (fun r => r.getD j none) hlen

theorem coerceOne_names {df d : Table} {n : Str}
    (h : coerceOne df n = .ok d) : d.names = df.names := by
  unfold coerceOne at h
  split at h
  · rw [← Except.ok.inj h]
  · split at h
    · rw [← Except.ok.inj h]; rfl
    · split at h
      · rw [← Except.ok.inj h]; rfl
      · exact absurd h (by simp)

theorem coerceOne_colCells_ne {df d : Table} {n : Str} {j : Nat}
    (h : coerceOne df n = .ok d)
    (hj : ∀ i, df.names.findIdx? (fun m => m = n) = some i → i ≠ j) :
    colCells d j = colCells df j := by
  unfold coerceOne at h
  split at h
  · rw [← Except.ok.inj h]
  · next i heq =>
    have hne := hj i heq
    split at h
    · next newCol hcast =>
      rw [← Except.ok.inj h]
      exact colCells_setColCells_ne hne
        (by rw [castColWith_length hcast]; exact List.length_map _ _)
    · split at h
      · next newCol hcast =>
        rw [← Except.ok.inj h]
        exact colCells_setColCells_ne hne
          (by rw [castColWith_length hcast]; exact List.length_map _ _)
      · exact absurd h (by simp)

theorem coerceOne_error_iff (df : Table) (n : Str) :
    (∃ e, coerceOne df n = .error e) ↔
      ∃ i, df.names.findIdx? (fun m => m = n) = some i ∧
        castColWith castCellInt64 (colCells df i) = none ∧
        castColWith fallbackCell (colCells df i) = none := by
  cases hidx : df.names.findIdx? (fun m => m = n) with
  | none =>
    have hco : coerceOne df n = .ok df := by
      simp only [coerceOne, hidx]
    refine iff_of_false ?_ ?_
    · rintro ⟨e, he⟩
      rw [hco] at he
      exact absurd he (by simp)
    · rintro ⟨i, hi, -⟩
      exact absurd hi (by simp)
  | some i =>
    cases hc1 : castColWith castCellInt64 (colCells df i) with
    | some newCol =>
      have hco : coerceOne df n = .ok (setColCells df i newCol) := by
        simp only [coerceOne, hidx, hc1]
      refine iff_of_false ?_ ?_
      · rintro ⟨e, he⟩
        rw [hco] at he
        exact absurd he (by simp)
      · rintro ⟨i', hi', hcast', -⟩
        rw [← Option.some.inj hi'] at hcast'
        rw [hc1] at hcast'
        exact absurd hcast' (by simp)
    | none =>
      cases hc2 : castColWith fallbackCell (colCells df i) with
      | some newCol =>
        have hco : coerceOne df n = .ok (setColCells df i newCol) := by
          simp only [coerceOne, hidx, hc1, hc2]
        refine iff_of_false ?_ ?_
        · rintro ⟨e, he⟩
          rw [hco] at he
          exact absurd he (by simp)
        · rintro ⟨i', hi', -, hcast'⟩
          rw [← Option.some.inj hi'] at hcast'
          rw [hc2] at hcast'
          exact absurd hcast' (by simp)
      | none =>
        have hco : coerceOne df n = .error n := by
          simp only [coerceOne, hidx, hc1, hc2]
        exact iff_of_true ⟨n, hco⟩ ⟨i, rfl, hc1, hc2⟩

/-- C6 (amended) — Numeric coercion can abort the load: the coercion loop
raises exactly when some known numeric column is present and both the
strict `Int64` cast and the strip-non-digits fallback cast fail on it
(the fallback is not wrapped in a `try`, so its failure propagates). -/
theorem coerceNumeric_error_iff (df : Table) :
    (∃ e, coerceNumericColumns df = .error e) ↔
      ∃ n ∈ numericCols, ∃ i, df.names.findIdx? (fun m => m = n) = some i ∧
        castColWith castCellInt64 (colCells df i) = none ∧
        castColWith fallbackCell (colCells df i) = none := by
  unfold coerceNumericColumns
  cases htm : coerceOne df (str "total_minutes") with
  | error e =>
    exact iff_of_true ⟨e, rfl⟩
      ⟨str "total_minutes", by simp [numericCols],
        (coerceOne_error_iff df (str "total_minutes")).mp ⟨e, htm⟩⟩
  | ok d1 =>
    have htmfalse : ¬ ∃ i, df.names.findIdx? (fun m => m = str "total_minutes") = some i ∧
        castColWith castCellInt64 (colCells df i) = none ∧
        castColWith fallbackCell (colCells df i) = none := by
      intro hx
      obtain ⟨e, he⟩ := (coerceOne_error_iff df (str "total_minutes")).mpr hx
      rw [htm] at he
      exact absurd he (by simp)
    have hnames := coerceOne_names htm
    have hidxeq : d1.names.findIdx? (fun m => m = str "job_runs")
        = df.names.findIdx? (fun m => m = str "job_runs") := by rw [hnames]
    have hcols : ∀ i, df.names.findIdx? (fun m => m = str "job_runs") = some i →
        colCells d1 i = colCells df i := by
      intro i hi
      refine coerceOne_colCells_ne htm ?_
      intro i1 hi1 hcon
      subst hcon
      have h1 := (findIdx?_getD hi1).1
      have h2 := (findIdx?_getD hi).1
      simp only [decide_eq_true_eq] at h1 h2
      rw [h1] at h2
      exact absurd h2 (by decide)
    rw [coerceOne_error_iff d1 (str "job_runs")]
    constructor
    · rintro ⟨i, hi, hcast1, hcast2⟩
      rw [hidxeq] at hi
      rw [hcols i hi] at hcast1 hcast2
      exact ⟨str "job_runs", by simp [numericCols], i, hi, hcast1, hcast2⟩
    · rintro ⟨n, hn, i, hi, hcast1, hcast2⟩
      rcases List.mem_cons.mp hn with rfl | hn2
      · exact absurd ⟨i, hi, hcast1, hcast2⟩ htmfalse
      · rcases List.mem_cons.mp hn2 with rfl | hn3
        · refine ⟨i, ?_, ?_, ?_⟩
          · rw [hidxeq]; exact hi
          · rw [hcols i hi]; exact hcast1
          · rw [hcols i hi]; exact hcast2
        · simp at hn3

/-! ## Header renaming of the loader (`load_and_clean_csv`, the
`df.rename(mapping)` step) -/

/-- First name in the list that occurs again later.  When the schema that
`rename` would produce contains such a repeat, polars raises a
`DuplicateError` naming the column; `none` means the schema is clean. -/
def firstDup : List Str → Option Str
  | [] => none
  | x :: xs => if x ∈ xs then some x else firstDup xs

/-- `df.rename({orig: _clean_colname(orig) for orig in df.columns})`: every
header is rewritten through the normalizer, cell data is untouched, and a
collision among the rewritten names makes polars `rename` raise
(`Except.error` carries the duplicated name). -/
def renameColumns (df : Table) : Except Str Table :=
  let newNames := df.names.map (fun n => cleanColname (some n))
  match firstDup newNames with
  | some d => .error d
  | none => .ok ⟨newNames, df.rows⟩

theorem firstDup_eq_none_iff : ∀ xs : List Str, firstDup xs = none ↔ xs.Nodup := by
  intro xs
  induction xs with
  | nil => simp [firstDup]
  | cons x xs ih =>
    by_cases hx : x ∈ xs
    · simp [firstDup, hx]
    · simp [firstDup, hx, ih]

theorem renameColumns_eq_ok {df : Table}
    (h : firstDup (df.names.map (fun n => cleanColname (some n))) = none) :
    renameColumns df
      = .ok ⟨df.names.map (fun n => cleanColname (some n)), df.rows⟩ := by
  unfold renameColumns
  simp only []
  rw [h]

theorem renameColumns_eq_error {df : Table} {d : Str}
    (h : firstDup (df.names.map (fun n => cleanColname (some n))) = some d) :
    renameColumns df = .error d := by
  unfold renameColumns
  simp only []
  rw [h]

/-- Two raw CSV headers that normalize to the same snake_case name:
`"'Job"` and `"Job#"` both clean to `job`. -/
def dupHeaders : Table :=
  ⟨[str "'Job", str "Job#"], [[some (Val.vInt 1), some (Val.vInt 2)]]⟩

/-- C7 counterexample — when two distinct raw headers normalize to the
same canonical name, `load` does not succeed with a last-applied-wins
resolution: the `rename` raises a duplicate-column error and loading
aborts. -/
theorem rename_duplicate_counterexample :
    renameColumns dupHeaders = .error (str "job") := by decide

/-- C7 (amended) — Duplicate-header policy of the loader: renaming maps
every header through the normalizer and leaves the rows untouched; it
succeeds exactly when the normalized names are pairwise distinct, and
fails (polars `DuplicateError`, no last-applied-wins resolution) exactly
when two distinct raw headers normalize to the same canonical name. -/
theorem rename_duplicate_policy (df : Table) (hnd : df.names.Nodup) :
    ((∃ t, renameColumns df = .ok t) ↔
        (df.names.map (fun n => cleanColname (some n))).Nodup)
    ∧ (∀ t, renameColumns df = .ok t →
        t.names = df.names.map (fun n => cleanColname (some n)) ∧ t.rows = df.rows)
    ∧ ((∃ e, renameColumns df = .error e) ↔
        ∃ a ∈ df.names, ∃ b ∈ df.names, a ≠ b ∧
          cleanColname (some a) = cleanColname (some b)) := by
  cases hfd : firstDup (df.names.map (fun n => cleanColname (some n))) with
  | none =>
    have hL := renameColumns_eq_ok hfd
    have hnodup := (firstDup_eq_none_iff _).mp hfd
    have hinj := (List.nodup_map_iff_inj_on hnd).mp hnodup
    refine ⟨⟨fun _ => hnodup, fun _ => ⟨_, hL⟩⟩, ?_, ?_⟩
    · intro t ht
      rw [hL] at ht
      have hEq := Except.ok.inj ht
      rw [← hEq]
      exact ⟨rfl, rfl⟩
    · constructor
      · rintro ⟨e, he⟩
        rw [hL] at he
        exact Except.noConfusion he
      · rintro ⟨a, ha, b, hb, hab, hf⟩
        exact absurd (hinj a ha b hb hf) hab
  | some d =>
    have hL := renameColumns_eq_error hfd
    have hnL : ¬ (df.names.map (fun n => cleanColname (some n))).Nodup := by
      intro hc
      rw [← firstDup_eq_none_iff] at hc
      rw [hc] at hfd
      exact Option.noConfusion hfd
    refine ⟨?_, ?_, ?_⟩
    · constructor
      · rintro ⟨t, ht⟩
        rw [hL] at ht
        exact Except.noConfusion ht
      · intro hc
        exact absurd hc hnL
    · intro t ht
      rw [hL] at ht
      exact Except.noConfusion ht
    · have hni : ¬ ∀ x ∈ df.names, ∀ y ∈ df.names,
          cleanColname (some x) = cleanColname (some y) → x = y := by
        intro hc
        exact hnL ((List.nodup_map_iff_inj_on hnd).mpr hc)
      push_neg at hni
      obtain ⟨a, ha, b, hb, hf, hab⟩ := hni
      exact ⟨fun _ => ⟨a, ha, b, hb, hab, hf⟩, fun _ => ⟨d, hL⟩⟩

/-- Closed instance of the duplicate-header policy: the two raw headers of
`dupHeaders` are distinct, normalize to the same name, and renaming
errors out. -/
theorem rename_duplicate_policy_witness :
    dupHeaders.names.Nodup ∧ (∃ e, renameColumns dupHeaders = .error e) :=
  ⟨by decide, (rename_duplicate_policy dupHeaders (by decide)).2.2.mpr
    ⟨str "'Job", by decide, str "Job#", by decide, by decide, by decide⟩⟩

/-! ## Excel preparation (`prepare_excel_data`) -/

/-- Divide a value by the integer `d`, as polars `/` does on a numeric
column (integers become floats); a string cell makes the expression
raise, which `none` models. -/
def divVal (d : Int) : Val → Option Val
  | .vInt n => some (.vFloat ((n : ℚ) / (d : ℚ)))
  | .vFloat q => some (.vFloat (q / (d : ℚ)))
  | .vStr _ => none

/-- Divide a cell by `d`; a null cell stays null. -/
def divCell (d : Int) : Cell → Option Cell
  | none => some none
  | some v => (divVal d v).map some

/-- The effect of `with_columns((pl.col(n) / d).alias(n))`: rewrite every
cell of the column named `n` through `f`; when the column is absent the
frame is unchanged (the code then adds no expression for it), and a
failing cell raises. -/
def mapColCells (t : Table) (n : Str) (f : Cell → Option Cell) : Option Table :=
  match t.names.findIdx? (fun m => m = n) with
  | none => some t
  | some i =>
    match castColWith f (colCells t i) with
    | none => none
    | some newCol => some (setColCells t i newCol)

/-- The four columns `prepare_excel_data` rescales, in code order. -/
def excelCols : List Str :=
  [str "total_minutes", str "failure_rate", str "avg_run_time",
    str "avg_queue_time"]

/-- The format map, built in the insertion order of the code: an entry for
each of the four columns that is present in the input frame. -/
def excelFormats (df : Table) : List (Str × Str) :=
  (if df.hasCol (str "total_minutes")
    then [(str "total_minutes", str "[h]\"h\"mm\"m\"")] else [])
  ++ (if df.hasCol (str "failure_rate")
    then [(str "failure_rate", str "0.00%")] else [])
  ++ (if df.hasCol (str "avg_run_time")
    then [(str "avg_run_time", str "[h]\"h\"mm\"m\"ss\"s\"")] else [])
  ++ (if df.hasCol (str "avg_queue_time")
    then [(str "avg_queue_time", str "[h]\"h\"mm\"m\"ss\"s\"")] else [])

/-- `prepare_excel_data`: `total_minutes` is divided by `24*60`,
`failure_rate` by `100`, `avg_run_time` and `avg_queue_time` by
`24*60*60*1000`, each aliased back to its own name.  The code collects the
expressions (guarded by presence in the input frame) and applies them in a
single `with_columns`; since the four names are distinct and
`mapColCells` is the identity on an absent column, applying the four
rewrites in sequence is the same transformation. -/
def prepareExcelData (df : Table) : Option (Table × List (Str × Str)) :=
  ((((mapColCells df (str "total_minutes") (divCell 1440)).bind
      (fun t1 => mapColCells t1 (str "failure_rate") (divCell 100))).bind
      (fun t2 => mapColCells t2 (str "avg_run_time") (divCell 86400000))).bind
      (fun t3 => mapColCells t3 (str "avg_queue_time") (divCell 86400000))).map
      (fun t4 => (t4, excelFormats df))

theorem mapColCells_frame {t t' : Table} {n : Str} {f : Cell → Option Cell}
    (h : mapColCells t n f = some t') :
    t'.names = t.names ∧ t'.rows.length = t.rows.length ∧
      ∀ j, t.names.getD j (str "") ≠ n → colCells t' j = colCells t j := by
  unfold mapColCells at h
  cases hidx : t.names.findIdx? (fun m => m = n) with
  | none =>
    rw [hidx] at h
    have ht : t = t' := Option.some.inj h
    rw [← ht]
    exact ⟨rfl, rfl, fun j _ => rfl⟩
  | some i =>
    rw [hidx] at h
    simp only [] at h
    cases hcast : castColWith f (colCells t i) with
    | none =>
      rw [hcast] at h
      exact Option.noConfusion h
    | some newCol =>
      rw [hcast] at h
      have hlen : newCol.length = t.rows.length := by
        have h1 := castColWith_length hcast
        simpa [colCells] using h1
      have ht : setColCells t i newCol = t' := Option.some.inj h
      rw [← ht]
      refine ⟨rfl, ?_, ?_⟩
      · show ((t.rows.zip newCol).map (fun pr => pr.1.set i pr.2)).length
          = t.rows.length
        rw [List.length_map, List.length_zip]
        omega
      · intro j hj
        have hne : i ≠ j := by
          intro he
          obtain ⟨hp, _⟩ := findIdx?_getD hidx
          rw [he] at hp
          exact hj (by simpa using hp)
        exact colCells_setColCells_ne hne hlen

/-- C10 — Frame property of the Excel adapter: `prepare_excel_data`
preserves the column names and the row count, leaves every column whose
name is not among `total_minutes`, `failure_rate`, `avg_run_time`,
`avg_queue_time` unchanged, and the keys of the returned format map are
exactly those of the four that are present in the input, in code order. -/
theorem prepare_excel_frame (df t : Table) (fmts : List (Str × Str))
    (h : prepareExcelData df = some (t, fmts)) :
    t.names = df.names ∧
    t.rows.length = df.rows.length ∧
    (∀ j, df.names.getD j (str "") ∉ excelCols → colCells t j = colCells df j) ∧
    fmts.map Prod.fst = excelCols.filter (fun n => df.hasCol n) := by
  unfold prepareExcelData at h
  rcases Option.map_eq_some'.mp h with ⟨t4, hb3, hpair⟩
  rcases Option.bind_eq_some.mp hb3 with ⟨t3, hb2, hm4⟩
  rcases Option.bind_eq_some.mp hb2 with ⟨t2, hb1, hm3⟩
  rcases Option.bind_eq_some.mp hb1 with ⟨t1, hm1, hm2⟩
  obtain ⟨hnt, hft⟩ : t4 = t ∧ excelFormats df = fmts := by
    exact ⟨congrArg Prod.fst hpair, congrArg Prod.snd hpair⟩
  obtain ⟨hn1, hl1, hc1⟩ := mapColCells_frame hm1
  obtain ⟨hn2, hl2, hc2⟩ := mapColCells_frame hm2
  obtain ⟨hn3, hl3, hc3⟩ := mapColCells_frame hm3
  obtain ⟨hn4, hl4, hc4⟩ := mapColCells_frame hm4
  refine ⟨?_, ?_, ?_, ?_⟩
  · rw [← hnt, hn4, hn3, hn2, hn1]
  · rw [← hnt, hl4, hl3, hl2, hl1]
  · intro j hj
    simp only [excelCols, List.mem_cons, List.not_mem_nil, or_false,
      not_or] at hj
    obtain ⟨hj1, hj2, hj3, hj4⟩ := hj
    rw [← hnt,
      hc4 j (by rw [hn3, hn2, hn1]; exact hj4),
      hc3 j (by rw [hn2, hn1]; exact hj3),
      hc2 j (by rw [hn1]; exact hj2),
      hc1 j hj1]
  · rw [← hft]
    cases h1 : df.hasCol (str "total_minutes") <;>
    cases h2 : df.hasCol (str "failure_rate") <;>
    cases h3 : df.hasCol (str "avg_run_time") <;>
    cases h4 : df.hasCol (str "avg_queue_time") <;>
    simp [excelFormats, excelCols, List.filter_cons, h1, h2, h3, h4]

/-- A frame for exercising the Excel adapter: a `workflow` column that
must be left alone, a `total_minutes` column (null cells), and no other
rescaled column. -/
def exExcel : Table :=
  ⟨[str "workflow", str "total_minutes"],
   [[some (Val.vStr (str "CI")), none],
    [some (Val.vStr (str "CD")), none]]⟩

/-- Closed instance of the Excel frame property on `exExcel`: names and
row count preserved, the `workflow` column untouched, and the format map
has exactly the key `total_minutes`. -/
theorem prepare_excel_frame_witness :
    exExcel.names = exExcel.names ∧
    exExcel.rows.length = exExcel.rows.length ∧
    (∀ j, exExcel.names.getD j (str "") ∉ excelCols →
      colCells exExcel j = colCells exExcel j) ∧
    [(str "total_minutes", str "[h]\"h\"mm\"m\"")].map Prod.fst
      = excelCols.filter (fun n => exExcel.hasCol n) :=
  prepare_excel_frame exExcel exExcel
    [(str "total_minutes", str "[h]\"h\"mm\"m\"")] (by decide)

end ActionsMetrics
